import Mathlib

/-!
Verification of the saltpack encryption-mode core (`saltpack/encrypt.py`).

The Python source orchestrates two external collaborators: the NaCl crypto
library (X25519 box/secretbox, SHA-512, HMAC-SHA-512) and the `umsgpack`
MessagePack codec.  Per the specification those are external interfaces, so
this development gives them executable symbolic models that reflect exactly
the contracts the pipeline relies on (authenticated encryption is invertible
with the right key and nonce and rejects wrong ones, X25519 shared secrets
are symmetric, MessagePack serialization parses back to the packed value).
Everything in the repository itself (`chunks_with_empty`, `chunks_loop`,
`payload_key_nonce`, `encrypt`, `decrypt`) is translated line by line.

Byte strings are modelled as `List Nat`.  Real byte strings use entries
below 256; the symbolic outputs of the crypto models use larger entries,
which no claim depends on.
-/

namespace Saltpack

/-- A byte string.  Entries of genuine byte strings are below 256; symbolic
crypto output entries may be larger, which the pipeline never inspects. -/
abbrev Bytes := List Nat

/-! ## Positional number encodings

A byte string is packed into three numbers `(width, length, digits)` where
`digits` is the little-endian base-`2 ^ width` value of the list.  All
recursions are structural (the digit extractor is fueled by the known list
length), so every definition reduces inside the kernel. -/

/-- Bit length of `n`, computed with `fuel ≥ n` steps of structural
recursion (each step halves the argument). -/
def bitLenF : Nat → Nat → Nat
  | 0, _ => 0
  | _ + 1, 0 => 0
  | fuel + 1, n + 1 => bitLenF fuel ((n + 1) / 2) + 1

/-- Bit length of a natural number (`0` has bit length `0`). -/
def bitLen (n : Nat) : Nat := bitLenF n n

/-- Largest bit length of any entry of `l`. -/
def maxBits (l : Bytes) : Nat := l.foldr (fun a acc => max (bitLen a) acc) 0

/-- Digit width used to pack the list `l`: one more than the widest entry. -/
def encK (l : Bytes) : Nat := maxBits l + 1

/-- Little-endian evaluation of a digit list in base `B`. -/
def ofDigitsB (B : Nat) : Bytes → Nat
  | [] => 0
  | a :: l => a + B * ofDigitsB B l

/-- Extract `len` little-endian base-`B` digits of `S` (structural on `len`). -/
def digitsFuel (B : Nat) : Nat → Nat → Bytes
  | 0, _ => []
  | len + 1, S => S % B :: digitsFuel B len (S / B)

/-- The three numbers `[width, length, packed digits]` that describe `l`
injectively.  Symbolic crypto outputs carry such triples in their entries. -/
def encTriple (l : Bytes) : Bytes :=
  [encK l, l.length, ofDigitsB (2 ^ encK l) l]

theorem bitLenF_lt (fuel : Nat) : ∀ n, n ≤ fuel → n < 2 ^ bitLenF fuel n := by
  induction fuel with
  | zero =>
    intro n h
    have hn : n = 0 := by omega
    subst hn
    simp [bitLenF]
  | succ fuel ih =>
    intro n h
    rcases n with _ | m
    · simp [bitLenF]
    · have hle : (m + 1) / 2 ≤ fuel := by omega
      have hrec := ih ((m + 1) / 2) hle
      have hstep : bitLenF (fuel + 1) (m + 1) = bitLenF fuel ((m + 1) / 2) + 1 := rfl
      rw [hstep, Nat.pow_succ]
      omega

theorem bitLen_lt (n : Nat) : n < 2 ^ bitLen n := bitLenF_lt n n le_rfl

theorem bitLen_le_maxBits {a : Nat} {l : Bytes} (h : a ∈ l) :
    bitLen a ≤ maxBits l := by
  induction l with
  | nil => cases h
  | cons b l ih =>
    rcases List.mem_cons.mp h with rfl | hmem
    · exact le_max_left _ _
    · exact le_trans (ih hmem) (le_max_right _ _)

theorem elem_lt_base {a : Nat} {l : Bytes} (h : a ∈ l) : a < 2 ^ encK l := by
  calc a < 2 ^ bitLen a := bitLen_lt a
    _ ≤ 2 ^ encK l := Nat.pow_le_pow_right (by omega)
        (by unfold encK; have := bitLen_le_maxBits h; omega)

theorem digitsFuel_ofDigitsB {B : Nat} (hB : 1 ≤ B) :
    ∀ l : Bytes, (∀ a ∈ l, a < B) →
      digitsFuel B l.length (ofDigitsB B l) = l := by
  intro l
  induction l with
  | nil => intro _; rfl
  | cons a l ih =>
    intro hlt
    have ha : a < B := hlt a (List.mem_cons_self a l)
    have hmod : (a + B * ofDigitsB B l) % B = a := by
      rw [Nat.add_mul_mod_self_left, Nat.mod_eq_of_lt ha]
    have hdiv : (a + B * ofDigitsB B l) / B = ofDigitsB B l := by
      rw [Nat.add_mul_div_left _ _ (by omega : 0 < B), Nat.div_eq_of_lt ha]
      omega
    simp only [List.length_cons, ofDigitsB, digitsFuel, hmod, hdiv]
    exact congrArg (a :: ·) (ih (fun b hb => hlt b (List.mem_cons_of_mem _ hb)))

theorem decode_encTriple (l : Bytes) :
    digitsFuel (2 ^ encK l) l.length (ofDigitsB (2 ^ encK l) l) = l :=
  digitsFuel_ofDigitsB (pow_pos (by norm_num : (0:ℕ) < 2) _) l
    (fun _ h => elem_lt_base h)

theorem encTriple_inj {l l' : Bytes} (h : encTriple l = encTriple l') :
    l = l' := by
  simp only [encTriple, List.cons.injEq, and_true] at h
  obtain ⟨hk, hlen, hS⟩ := h
  have hd := decode_encTriple l
  rw [hS, hk, hlen, decode_encTriple l'] at hd
  exact hd.symm

/-! ## Models of the external crypto primitives -/

/-- The all-zero 32-byte string used as the plaintext of MAC-key boxes. -/
def zero32 : Bytes := List.replicate 32 0

/-- Model of the external collaborator `crypto_secretbox` (XSalsa20-Poly1305):
a 16-entry tag holding the `encTriple`s of message, nonce and key, followed
by a body of the message's length.  Output length is `16 + |message|` as in
NaCl, and the output determines message, nonce and key injectively. -/
def crypto_secretbox (message nonce key : Bytes) : Bytes :=
  (encTriple message ++ encTriple nonce ++ encTriple key ++ List.replicate 7 0) ++
    ((encTriple message ++ encTriple nonce ++ encTriple key ++
      List.replicate message.length 0).take message.length)

/-- Model of the external collaborator `crypto_secretbox_open`: recover the
candidate message from the tag, then authenticate by structural equality
with a re-encryption; a wrong key, a wrong nonce or mangled bytes give
`none`. -/
def crypto_secretbox_open (ciphertext nonce key : Bytes) : Option Bytes :=
  match ciphertext with
  | km :: lm :: sm :: _ =>
    if ciphertext = crypto_secretbox (digitsFuel (2 ^ km) lm sm) nonce key
    then some (digitsFuel (2 ^ km) lm sm) else none
  | _ => none

/-- The `(width, length, digits)` triple of an X25519 scalar. -/
def scalarTriple (sk : Bytes) : Nat × Nat × Nat :=
  (encK sk, sk.length, ofDigitsB (2 ^ encK sk) sk)

/-- Model of the external collaborator `crypto_scalarmult_base`: a 32-entry
public key carrying its scalar's triple in the three leading entries. -/
def crypto_scalarmult_base (sk : Bytes) : Bytes :=
  (scalarTriple sk).1 :: (scalarTriple sk).2.1 :: (scalarTriple sk).2.2 ::
    List.replicate 29 0

/-- The scalar triple a public key carries in its three leading entries. -/
def tripleOf (pk : Bytes) : Nat × Nat × Nat :=
  (pk.getD 0 0, pk.getD 1 0, pk.getD 2 0)

/-- Lexicographic order on scalar triples, used to make the Diffie-Hellman
shared secret independent of the order of the two key pairs. -/
def tripleLe (x y : Nat × Nat × Nat) : Prop :=
  x.1 < y.1 ∨ (x.1 = y.1 ∧ (x.2.1 < y.2.1 ∨ (x.2.1 = y.2.1 ∧ x.2.2 ≤ y.2.2)))

instance (x y : Nat × Nat × Nat) : Decidable (tripleLe x y) := by
  unfold tripleLe; infer_instance

/-- The two scalar triples of a Diffie-Hellman pair, written in canonical
order into a 32-entry symmetric key. -/
def sortedSix (x y : Nat × Nat × Nat) : Bytes :=
  (if tripleLe x y then x else y).1 ::
    (if tripleLe x y then x else y).2.1 ::
    (if tripleLe x y then x else y).2.2 ::
    (if tripleLe x y then y else x).1 ::
    (if tripleLe x y then y else x).2.1 ::
    (if tripleLe x y then y else x).2.2 :: List.replicate 26 0

/-- Model of the external collaborator `crypto_box_beforenm`: the X25519
shared secret of the peer public key and the own private key, symmetric in
the two key pairs. -/
def crypto_box_beforenm (pk sk : Bytes) : Bytes :=
  sortedSix (tripleOf pk) (scalarTriple sk)

/-- Model of the external collaborator `crypto_box`: a secretbox under the
precomputed shared secret, as in NaCl. -/
def crypto_box (message nonce pk sk : Bytes) : Bytes :=
  crypto_secretbox message nonce (crypto_box_beforenm pk sk)

/-- Model of the external collaborator `crypto_box_open_afternm`. -/
def crypto_box_open_afternm (ciphertext nonce k : Bytes) : Option Bytes :=
  crypto_secretbox_open ciphertext nonce k

/-- Mixing step of the modelled hash functions (least 64 bits kept). -/
def mixStep (h a : Nat) : Nat := (h * 1000003 + a + 1) % 2 ^ 64

/-- A 64-bit digest of a byte string.  The pipeline only ever compares
digests of honestly recomputed inputs, so collision resistance is not
modelled. -/
def mix (l : Bytes) : Nat := l.foldl mixStep 1

/-- Model of the external collaborator `crypto_hash` (SHA-512): 64 entries
whose head is a digest of the input. -/
def crypto_hash (m : Bytes) : Bytes := mix m :: List.replicate 63 0

/-- Model of the external collaborator HMAC-SHA-512: 64 entries whose head
is a digest of key and message. -/
def hmac_sha512 (key msg : Bytes) : Bytes :=
  mixStep (mix key) (mix msg) :: List.replicate 63 0

/-- Big-endian 8-byte encoding of an index (`int.to_bytes(8, "big")`). -/
def u64be (n : Nat) : Bytes :=
  (List.range 8).map (fun i => n / 256 ^ (7 - i) % 256)

/-! ### Laws of the crypto models -/

theorem crypto_secretbox_cons (m n k : Bytes) :
    crypto_secretbox m n k =
      encK m :: m.length :: ofDigitsB (2 ^ encK m) m ::
        (encTriple n ++ encTriple k ++ List.replicate 7 0 ++
          ((encTriple m ++ encTriple n ++ encTriple k ++
            List.replicate m.length 0).take m.length)) := by
  simp [crypto_secretbox, encTriple]

theorem crypto_secretbox_open_roundtrip (m n k : Bytes) :
    crypto_secretbox_open (crypto_secretbox m n k) n k = some m := by
  conv_lhs => rw [crypto_secretbox_cons]
  simp only [crypto_secretbox_open, decode_encTriple]
  rw [← crypto_secretbox_cons]
  simp

theorem crypto_secretbox_open_eq_some {ct n k m : Bytes}
    (h : crypto_secretbox_open ct n k = some m) :
    ct = crypto_secretbox m n k := by
  match ct with
  | [] => simp [crypto_secretbox_open] at h
  | [a] => simp [crypto_secretbox_open] at h
  | [a, b] => simp [crypto_secretbox_open] at h
  | km :: lm :: sm :: rest =>
    simp only [crypto_secretbox_open] at h
    by_cases heq : km :: lm :: sm :: rest =
        crypto_secretbox (digitsFuel (2 ^ km) lm sm) n k
    · rw [if_pos heq] at h
      obtain rfl := Option.some.inj h
      exact heq
    · rw [if_neg heq] at h
      cases h

theorem crypto_secretbox_inj {m n k m' n' k' : Bytes}
    (h : crypto_secretbox m n k = crypto_secretbox m' n' k') :
    m = m' ∧ n = n' ∧ k = k' := by
  have h' := h
  simp only [crypto_secretbox, encTriple, List.cons_append, List.nil_append,
    List.append_assoc, List.cons.injEq] at h'
  obtain ⟨h1, h2, h3, h4, h5, h6, h7, h8, h9, -⟩ := h'
  rw [h1] at h3
  rw [h4] at h6
  rw [h7] at h9
  refine ⟨encTriple_inj ?_, encTriple_inj ?_, encTriple_inj ?_⟩ <;>
    simp [encTriple, h1, h2, h3, h4, h5, h6, h7, h8, h9]

theorem tripleLe_total (x y : Nat × Nat × Nat) : tripleLe x y ∨ tripleLe y x := by
  obtain ⟨a, b, c⟩ := x
  obtain ⟨d, e, f⟩ := y
  unfold tripleLe
  simp only
  omega

theorem tripleLe_antisymm {x y : Nat × Nat × Nat}
    (h1 : tripleLe x y) (h2 : tripleLe y x) : x = y := by
  obtain ⟨a, b, c⟩ := x
  obtain ⟨d, e, f⟩ := y
  unfold tripleLe at h1 h2
  simp only [Prod.mk.injEq] at h1 h2 ⊢
  omega

theorem sortedSix_comm (x y : Nat × Nat × Nat) : sortedSix x y = sortedSix y x := by
  unfold sortedSix
  by_cases hxy : tripleLe x y
  · by_cases hyx : tripleLe y x
    · rw [tripleLe_antisymm hxy hyx]
    · simp [hxy, hyx]
  · by_cases hyx : tripleLe y x
    · simp [hxy, hyx]
    · cases (tripleLe_total x y) with
      | inl h => exact absurd h hxy
      | inr h => exact absurd h hyx

theorem sortedSix_cancel {x y z : Nat × Nat × Nat}
    (h : sortedSix x z = sortedSix y z) : x = y := by
  obtain ⟨a, b, c⟩ := x
  obtain ⟨d, e, f⟩ := y
  obtain ⟨g, i, j⟩ := z
  unfold sortedSix at h
  by_cases h1 : tripleLe (a, b, c) (g, i, j) <;>
    by_cases h2 : tripleLe (d, e, f) (g, i, j) <;>
      simp only [h1, h2, if_true, if_false, if_pos, if_neg, not_false_iff,
        List.cons.injEq, and_true] at h <;>
    · simp only [Prod.mk.injEq]
      omega

theorem tripleOf_base (sk : Bytes) :
    tripleOf (crypto_scalarmult_base sk) = scalarTriple sk := by
  simp [tripleOf, crypto_scalarmult_base]

theorem beforenm_symm (a b : Bytes) :
    crypto_box_beforenm (crypto_scalarmult_base a) b =
      crypto_box_beforenm (crypto_scalarmult_base b) a := by
  unfold crypto_box_beforenm
  rw [tripleOf_base, tripleOf_base, sortedSix_comm]

theorem beforenm_peer_eq {R e r : Bytes}
    (h : crypto_box_beforenm R e = crypto_box_beforenm (crypto_scalarmult_base e) r) :
    tripleOf R = scalarTriple r := by
  unfold crypto_box_beforenm at h
  rw [tripleOf_base] at h
  rw [sortedSix_comm (scalarTriple e) (scalarTriple r)] at h
  exact sortedSix_cancel h

end Saltpack

namespace Saltpack

/-! ## Model of the external MessagePack codec

`umsgpack` values are modelled by a small value tree; `packb` serializes a
value into a flat byte string (tag, length, payload — the shape of real
MessagePack) and `parseV` is the streaming decoder, consuming one value off
the front of a byte string.  Serialization is fueled by an upper bound on
the nesting depth (every value the pipeline packs has depth at most four)
and parsing is fueled by the stream length, keeping both structural. -/

inductive MPValue where
  | nil
  | bool (b : Bool)
  | int (n : Nat)
  | str (s : List Nat)
  | bin (bs : List Nat)
  | arr (vs : List MPValue)
deriving Repr

/-- Python truthiness of a decoded MessagePack value, as exercised by
`b"\x01" if final_flag else b"\x00"` and `if chunk == b'' or final_flag`. -/
def MPValue.truthy : MPValue → Bool
  | .nil => false
  | .bool b => b
  | .int n => n != 0
  | .str s => !s.isEmpty
  | .bin bs => !bs.isEmpty
  | .arr vs => !vs.isEmpty

/-- Depth-fueled serializer: tag entry, then a length entry and payload. -/
def serV : Nat → MPValue → Bytes
  | 0, _ => []
  | _ + 1, .nil => [0]
  | _ + 1, .bool b => [1, cond b 1 0]
  | _ + 1, .int n => [2, n]
  | _ + 1, .str s => 3 :: s.length :: s
  | _ + 1, .bin bs => 4 :: bs.length :: bs
  | fuel + 1, .arr vs => 5 :: vs.length :: (vs.map (serV fuel)).flatten

/-- Model of `umsgpack.packb`.  The fuel `6` exceeds the nesting depth of
every value the pipeline serializes (headers have depth four). -/
def packb (v : MPValue) : Bytes := serV 6 v

mutual

/-- Model of `umsgpack.unpack`: decode one value off the front of a byte
string, returning it with the unread remainder; `none` models the parse
exceptions.  Fueled by the stream length (each recursive call consumes at
least one entry, so `parseV s.length s` never exhausts its fuel). -/
def parseV : Nat → Bytes → Option (MPValue × Bytes)
  | 0, _ => none
  | _ + 1, 0 :: rest => some (.nil, rest)
  | _ + 1, 1 :: b :: rest => some (.bool (b != 0), rest)
  | _ + 1, 2 :: n :: rest => some (.int n, rest)
  | _ + 1, 3 :: len :: rest =>
    if len ≤ rest.length then some (.str (rest.take len), rest.drop len) else none
  | _ + 1, 4 :: len :: rest =>
    if len ≤ rest.length then some (.bin (rest.take len), rest.drop len) else none
  | fuel + 1, 5 :: len :: rest =>
    (parseVList fuel len rest).map (fun p => (.arr p.1, p.2))
  | _ + 1, _ => none

/-- Decode `n` consecutive values (the elements of an array). -/
def parseVList : Nat → Nat → Bytes → Option (List MPValue × Bytes)
  | 0, _, _ => none
  | _ + 1, 0, rest => some ([], rest)
  | fuel + 1, n + 1, rest =>
    (parseV fuel rest).bind (fun p =>
      (parseVList fuel n p.2).map (fun q => (p.1 :: q.1, q.2)))

end

/-! ## Constants (`encrypt.py` lines 78-94) -/

/-- The format name `"saltpack"` as ASCII bytes. -/
def saltpackName : Bytes := [115, 97, 108, 116, 112, 97, 99, 107]

/-- `b"saltpack_sender_key_sbox"` (24 bytes). -/
def SENDER_KEY_SECRETBOX_NONCE : Bytes :=
  saltpackName ++ [95, 115, 101, 110, 100, 101, 114, 95, 107, 101, 121, 95,
    115, 98, 111, 120]

/-- `b"saltpack_payload_key_box"` (24 bytes). -/
def PAYLOAD_KEY_BOX_NONCE_V1 : Bytes :=
  saltpackName ++ [95, 112, 97, 121, 108, 111, 97, 100, 95, 107, 101, 121,
    95, 98, 111, 120]

/-- `b"saltpack_recipsb"` (16 bytes), the source's v2 payload-key nonce
start (named with a PREFIX suffix in the source). -/
def PAYLOAD_KEY_BOX_NONCE_V2_START : Bytes :=
  saltpackName ++ [95, 114, 101, 99, 105, 112, 115, 98]

/-- `b"saltpack_ploadsb"` (16 bytes), the source's payload nonce start. -/
def PAYLOAD_NONCE_START : Bytes :=
  saltpackName ++ [95, 112, 108, 111, 97, 100, 115, 98]

/-- `CURRENT_MINOR_VERSIONS = {1: 0, 2: 0}` looked up at the major version
the caller chose (both supported majors map to minor `0`). -/
def current_minor_version (_major_version : Nat) : Nat := 0

/-- `payload_key_nonce` (lines 97-102). -/
def payload_key_nonce (version recipient_index : Nat) : Bytes :=
  if version = 1 then PAYLOAD_KEY_BOX_NONCE_V1
  else PAYLOAD_KEY_BOX_NONCE_V2_START ++ u64be recipient_index

/-! ## The chunkers (`chunks_with_empty` lines 23-32, `chunks_loop` 35-53)

Both while loops are viewed on the remaining suffix of the message
(`rest = message[chunk_start:]`, so the loop guard `chunk_start <
len(message)` becomes `rest ≠ []` and the final-flag test `chunk_start +
chunk_size >= len(message)` becomes `rest.length ≤ chunk_size`).  The
structural fuel `message.length` bounds the iteration count; it can only
run out when `chunk_size = 0`, which `chunks_loop` asserts against. -/

def chunksWithEmptyGo (chunk_size : Nat) : Nat → Bytes → List Bytes
  | 0, _ => []
  | fuel + 1, rest =>
    if rest.isEmpty then []
    else rest.take chunk_size :: chunksWithEmptyGo chunk_size fuel (rest.drop chunk_size)

/-- `chunks_with_empty`: the chunks of the message followed by one empty
terminator chunk. -/
def chunks_with_empty (message : Bytes) (chunk_size : Nat) : List Bytes :=
  chunksWithEmptyGo chunk_size message.length message ++ [[]]

def chunksLoopGo (chunk_size major_version : Nat) :
    Nat → Bytes → Nat → List (Nat × Bytes × Bool)
  | 0, _, _ => []
  | fuel + 1, rest, count =>
    if rest.isEmpty then []
    else (count, rest.take chunk_size,
            major_version != 1 && decide (rest.length ≤ chunk_size)) ::
         chunksLoopGo chunk_size major_version fuel (rest.drop chunk_size) (count + 1)

/-- `chunks_loop`: triples `(chunknum, chunk, final_flag)`; an empty message
yields the single triple `(0, b"", True)`, and under major version 1 a
trailing empty chunk is appended after the loop. -/
def chunks_loop (message : Bytes) (chunk_size major_version : Nat) :
    List (Nat × Bytes × Bool) :=
  if message.isEmpty then [(0, [], true)]
  else
    chunksLoopGo chunk_size major_version message.length message 0 ++
      (if major_version = 1 then
        [((chunksLoopGo chunk_size major_version message.length message 0).length,
          [], true)]
      else [])

/-! ## `encrypt` (lines 105-217)

The two `os.urandom(32)` draws (`ephemeral_private`, `payload_key`) are
explicit arguments: the spec describes a call as a pure function of its
inputs plus its CSPRNG draws. -/

/-- The recipient pair list built by the loop at lines 120-135. -/
def recipientPairs (major_version : Nat) (visible_recipients : Bool)
    (recipient_public_keys : List Bytes) (ephemeral_private payload_key : Bytes) :
    List MPValue :=
  recipient_public_keys.enum.map (fun p =>
    .arr [if visible_recipients then .bin p.2 else .nil,
          .bin (crypto_box payload_key (payload_key_nonce major_version p.1)
            p.2 ephemeral_private)])

/-- The six-element header array built at lines 137-146. -/
def headerValue (sender_private : Bytes) (recipient_public_keys : List Bytes)
    (visible_recipients : Bool) (major_version : Nat)
    (ephemeral_private payload_key : Bytes) : MPValue :=
  .arr [.str saltpackName,
        .arr [.int major_version, .int (current_minor_version major_version)],
        .int 0,
        .bin (crypto_scalarmult_base ephemeral_private),
        .bin (crypto_secretbox (crypto_scalarmult_base sender_private)
          SENDER_KEY_SECRETBOX_NONCE payload_key),
        .arr (recipientPairs major_version visible_recipients
          recipient_public_keys ephemeral_private payload_key)]

/-- The per-recipient MAC key computed by the loop at lines 153-183. -/
def macKeyEncrypt (major_version : Nat) (header_hash : Bytes)
    (recipient_index : Nat)
    (recipient_public sender_private ephemeral_private : Bytes) : Bytes :=
  if major_version = 1 then
    ((crypto_box zero32 (header_hash.take 24) recipient_public
      sender_private).drop 16).take 32
  else
    let base1 := (header_hash.take 16).set 15
      ((header_hash.take 16).getD 15 0 &&& 254)
    let mac_key_box := crypto_box zero32 (base1 ++ u64be recipient_index)
      recipient_public sender_private
    let base2 := (header_hash.take 16).set 15
      ((header_hash.take 16).getD 15 0 ||| 1)
    let mac_key_box2 := crypto_box zero32 (base2 ++ u64be recipient_index)
      recipient_public ephemeral_private
    (crypto_hash (mac_key_box.drop (mac_key_box.length - 32) ++
      mac_key_box2.drop (mac_key_box2.length - 32))).take 32

/-- One payload packet as assembled at lines 186-215. -/
def encryptPacket (major_version : Nat) (header_hash : Bytes)
    (recipient_mac_keys : List Bytes) (payload_key : Bytes)
    (chunknum : Nat) (chunk : Bytes) (final_flag : Bool) : MPValue :=
  let payload_nonce := PAYLOAD_NONCE_START ++ u64be chunknum
  let payload_secretbox := crypto_secretbox chunk payload_nonce payload_key
  let final_flag_byte : Bytes :=
    if major_version = 1 then [] else if final_flag then [1] else [0]
  let payload_hash := crypto_hash
    (header_hash ++ payload_nonce ++ final_flag_byte ++ payload_secretbox)
  let hash_authenticators := recipient_mac_keys.map
    (fun mac_key => (hmac_sha512 mac_key payload_hash).take 32)
  if major_version = 1 then
    .arr [.arr (hash_authenticators.map .bin), .bin payload_secretbox]
  else
    .arr [.bool final_flag, .arr (hash_authenticators.map .bin),
          .bin payload_secretbox]

/-- `encrypt`: the doubly encoded header followed by the packed packets of
every chunk. -/
def encrypt (sender_private : Bytes) (recipient_public_keys : List Bytes)
    (message : Bytes) (chunk_size : Nat) (visible_recipients : Bool)
    (major_version : Nat) (ephemeral_private payload_key : Bytes) : Bytes :=
  let header_bytes := packb (headerValue sender_private recipient_public_keys
    visible_recipients major_version ephemeral_private payload_key)
  let header_hash := crypto_hash header_bytes
  let recipient_mac_keys := recipient_public_keys.enum.map (fun p =>
    macKeyEncrypt major_version header_hash p.1 p.2 sender_private
      ephemeral_private)
  packb (.bin header_bytes) ++
    (chunks_loop message chunk_size major_version).flatMap (fun c =>
      packb (encryptPacket major_version header_hash recipient_mac_keys
        payload_key c.1 c.2.1 c.2.2))

/-! ## `decrypt` (lines 220-347) -/

/-- The error kinds of the `error` module (its file is outside `src/`, so
identities are modelled from the spec, section 7: distinct kinds with
unique identities) plus the `RuntimeError` raised for a missing recipient
and the implicit destructuring/type errors (`malformed`). -/
inductive DecryptError where
  | badFormat
  | badVersion
  | badMode
  | noMatchingRecipient
  | hmacFailure
  | cryptoFailure
  | malformed
deriving DecidableEq, Repr

/-- The fields bound by the destructuring at lines 228-236.  `none` models
the `ValueError` a non-matching shape raises (at least six elements, the
version pair exactly two; trailing elements ignored). -/
structure HeaderParts where
  format_name : MPValue
  major_version : MPValue
  minor_version : MPValue
  mode : MPValue
  ephemeral_public : MPValue
  sender_secretbox : MPValue
  recipient_pairs : MPValue

def destructureHeader : MPValue → Option HeaderParts
  | .arr (fmt :: ver :: mode :: eph :: sendsb :: recip :: _) =>
    match ver with
    | .arr [vmaj, vmin] => some ⟨fmt, vmaj, vmin, mode, eph, sendsb, recip⟩
    | _ => none
  | _ => none

/-- A value handed to a crypto primitive must be a byte string; anything
else raises a `TypeError` in the source, modelled as `malformed`. -/
def requireBin : MPValue → Except DecryptError Bytes
  | .bin bs => .ok bs
  | _ => .error .malformed

/-- Line 241: `if format_name != "saltpack"` (`BadFormatError`). -/
def checkFormatName : MPValue → Except DecryptError Unit
  | .str s => if s = saltpackName then .ok () else .error .badFormat
  | _ => .error .badFormat

/-- Line 244: `if major_version not in (1, 2)` (`BadVersionError`). -/
def checkMajorVersion : MPValue → Except DecryptError Nat
  | .int m => if m = 1 ∨ m = 2 then .ok m else .error .badVersion
  | _ => .error .badVersion

/-- Line 247: `if mode != 0` (`BadModeError`). -/
def checkMode : MPValue → Except DecryptError Unit
  | .int 0 => .ok ()
  | _ => .error .badMode

/-- The recipient-discovery loop at lines 251-263: walk the pairs in order,
silently skipping `CryptoError`s from `crypto_box_open_afternm`; the first
success fixes the recipient index and payload key, exhaustion raises the
no-matching-recipient error. -/
def findRecipient (major_version : Nat) (ephemeral_beforenm : Bytes) :
    List MPValue → Nat → Except DecryptError (Nat × Bytes)
  | [], _ => .error .noMatchingRecipient
  | pair :: rest, recipient_index =>
    match pair with
    | .arr (_ :: pkb :: _) =>
      match pkb with
      | .bin payload_key_box =>
        match crypto_box_open_afternm payload_key_box
            (payload_key_nonce major_version recipient_index)
            ephemeral_beforenm with
        | some payload_key => .ok (recipient_index, payload_key)
        | none =>
          findRecipient major_version ephemeral_beforenm rest
            (recipient_index + 1)
      | _ => .error .malformed
    | _ => .error .malformed

/-- The MAC key derived on the decrypt side (lines 270-296).  For v2 the
nonce base is mutated in place: the second nonce sets the low bit of the
base that already had it cleared. -/
def macKeyDecrypt (major_version : Nat) (header_hash : Bytes)
    (recipient_index : Nat)
    (sender_public ephemeral_public recipient_private : Bytes) : Bytes :=
  if major_version = 1 then
    ((crypto_box zero32 (header_hash.take 24) sender_public
      recipient_private).drop 16).take 32
  else
    let base1 := (header_hash.take 16).set 15
      ((header_hash.take 16).getD 15 0 &&& 254)
    let mac_key_box_sender := crypto_box zero32
      (base1 ++ u64be recipient_index) sender_public recipient_private
    let base2 := base1.set 15 (base1.getD 15 0 ||| 1)
    let mac_key_box_ephemeral := crypto_box zero32
      (base2 ++ u64be recipient_index) ephemeral_public recipient_private
    (crypto_hash (mac_key_box_sender.drop (mac_key_box_sender.length - 32) ++
      mac_key_box_ephemeral.drop (mac_key_box_ephemeral.length - 32))).take 32

/-- The packet loop at lines 303-345, fueled by the stream length (each
iteration consumes at least one entry).  Running out of fuel or failing to
parse models the unpack exception on a truncated stream. -/
def packetLoop (major_version recipient_index : Nat)
    (header_hash mac_key payload_key : Bytes) :
    Nat → Bytes → Nat → Except DecryptError Bytes
  | 0, _, _ => .error .malformed
  | fuel + 1, stream, chunknum =>
    match parseV stream.length stream with
    | none => .error .malformed
    | some (packet, rest) =>
      match (if major_version = 1 then
               match packet with
               | .arr (auths :: psb :: _) => some (MPValue.bool false, auths, psb)
               | _ => none
             else
               match packet with
               | .arr (ff :: auths :: psb :: _) => some (ff, auths, psb)
               | _ => none) with
      | none => .error .malformed
      | some (ffv, auths, psb) =>
        match auths with
        | .arr hash_authenticators =>
          match hash_authenticators[recipient_index]? with
          | none => .error .malformed
          | some hav =>
            match hav, psb with
            | .bin hash_authenticator, .bin payload_secretbox =>
              let final_flag := ffv.truthy
              let payload_nonce := PAYLOAD_NONCE_START ++ u64be chunknum
              let final_flag_byte : Bytes :=
                if major_version = 1 then [] else if final_flag then [1] else [0]
              let payload_hash := crypto_hash (header_hash ++ payload_nonce ++
                final_flag_byte ++ payload_secretbox)
              let our_authenticator := (hmac_sha512 mac_key payload_hash).take 32
              if hash_authenticator = our_authenticator then
                match crypto_secretbox_open payload_secretbox payload_nonce
                    payload_key with
                | none => .error .cryptoFailure
                | some chunk =>
                  if chunk.isEmpty || final_flag then .ok chunk
                  else
                    (packetLoop major_version recipient_index header_hash
                      mac_key payload_key fuel rest (chunknum + 1)).map
                      (chunk ++ ·)
              else .error .hmacFailure
            | _, _ => .error .malformed
        | _ => .error .malformed

/-- `decrypt`: parse and validate the header, discover the recipient,
derive the MAC key and run the packet loop. -/
def decrypt (input : Bytes) (recipient_private : Bytes) :
    Except DecryptError Bytes :=
  match parseV input.length input with
  | none => .error .malformed
  | some (first, stream) =>
    match requireBin first with
    | .error e => .error e
    | .ok header_bytes =>
      let header_hash := crypto_hash header_bytes
      match parseV header_bytes.length header_bytes with
      | none => .error .malformed
      | some (header, _) =>
        match destructureHeader header with
        | none => .error .malformed
        | some hp =>
          match requireBin hp.ephemeral_public with
          | .error e => .error e
          | .ok ephemeral_public =>
            let ephemeral_beforenm :=
              crypto_box_beforenm ephemeral_public recipient_private
            match checkFormatName hp.format_name with
            | .error e => .error e
            | .ok _ =>
              match checkMajorVersion hp.major_version with
              | .error e => .error e
              | .ok major_version =>
                match checkMode hp.mode with
                | .error e => .error e
                | .ok _ =>
                  match hp.recipient_pairs with
                  | .arr recipient_pairs =>
                    match findRecipient major_version ephemeral_beforenm
                        recipient_pairs 0 with
                    | .error e => .error e
                    | .ok found =>
                      match requireBin hp.sender_secretbox with
                      | .error e => .error e
                      | .ok sender_secretbox =>
                        match crypto_secretbox_open sender_secretbox
                            SENDER_KEY_SECRETBOX_NONCE found.2 with
                        | none => .error .cryptoFailure
                        | some sender_public =>
                          let mac_key := macKeyDecrypt major_version
                            header_hash found.1 sender_public
                            ephemeral_public recipient_private
                          packetLoop major_version found.1 header_hash
                            mac_key found.2 stream.length stream 0
                  | _ => .error .malformed

end Saltpack

namespace Saltpack

/-! ## Parsing laws of the MessagePack model -/

/-- `v` serialized at depth fuel `sf + 1` parses back under any parse fuel
of at least `pf`, leaving the rest of the stream untouched. -/
def SerParses (sf pf : Nat) (v : MPValue) : Prop :=
  ∀ fuel rest, pf ≤ fuel →
    parseV fuel (serV sf v ++ rest) = some (v, rest)

theorem SerParses.mono {sf pf pf' : Nat} {v : MPValue}
    (h : SerParses sf pf v) (hle : pf ≤ pf') : SerParses sf pf' v :=
  fun fuel rest hf => h fuel rest (le_trans hle hf)

theorem serParses_nil (sf : Nat) : SerParses (sf + 1) 1 .nil := by
  intro fuel rest h
  match fuel, h with
  | f + 1, _ => rfl

theorem serParses_bool (sf : Nat) (b : Bool) : SerParses (sf + 1) 1 (.bool b) := by
  intro fuel rest h
  match fuel, h with
  | f + 1, _ => cases b <;> rfl

theorem serParses_int (sf n : Nat) : SerParses (sf + 1) 1 (.int n) := by
  intro fuel rest h
  match fuel, h with
  | f + 1, _ => rfl

theorem serParses_str (sf : Nat) (s : List Nat) : SerParses (sf + 1) 1 (.str s) := by
  intro fuel rest h
  match fuel, h with
  | f + 1, _ =>
    show parseV (f + 1) (3 :: s.length :: (s ++ rest)) = some (.str s, rest)
    have hle : s.length ≤ (s ++ rest).length := by
      simp [List.length_append]
    simp [parseV, hle, List.take_left, List.drop_left]

theorem serParses_bin (sf : Nat) (bs : List Nat) : SerParses (sf + 1) 1 (.bin bs) := by
  intro fuel rest h
  match fuel, h with
  | f + 1, _ =>
    show parseV (f + 1) (4 :: bs.length :: (bs ++ rest)) = some (.bin bs, rest)
    have hle : bs.length ≤ (bs ++ rest).length := by
      simp [List.length_append]
    simp [parseV, hle, List.take_left, List.drop_left]

theorem parseVList_ser {sf pf : Nat} (hpf : 1 ≤ pf) :
    ∀ (vs : List MPValue), (∀ v ∈ vs, SerParses sf pf v) →
      ∀ fuel rest, pf + vs.length ≤ fuel →
        parseVList fuel vs.length ((vs.map (serV sf)).flatten ++ rest) =
          some (vs, rest) := by
  intro vs
  induction vs with
  | nil =>
    intro _ fuel rest hf
    match fuel, (by omega : 1 ≤ fuel) with
    | f + 1, _ => rfl
  | cons v vs ih =>
    intro hall fuel rest hf
    match fuel, (by omega : 1 ≤ fuel) with
    | f + 1, _ =>
      have hv : parseV f (serV sf v ++ ((vs.map (serV sf)).flatten ++ rest)) =
          some (v, (vs.map (serV sf)).flatten ++ rest) :=
        hall v (List.mem_cons_self v vs) f _ (by simp at hf; omega)
      have hrest : parseVList f vs.length ((vs.map (serV sf)).flatten ++ rest) =
          some (vs, rest) :=
        ih (fun w hw => hall w (List.mem_cons_of_mem _ hw)) f rest
          (by simp at hf ⊢; omega)
      show parseVList (f + 1) (vs.length + 1)
          ((serV sf v ++ (vs.map (serV sf)).flatten) ++ rest) = some (v :: vs, rest)
      rw [List.append_assoc]
      show (parseV f (serV sf v ++ ((vs.map (serV sf)).flatten ++ rest))).bind _ =
        some (v :: vs, rest)
      rw [hv]
      show (parseVList f vs.length ((vs.map (serV sf)).flatten ++ rest)).map _ =
        some (v :: vs, rest)
      rw [hrest]
      rfl

theorem serParses_arr {sf pf : Nat} (hpf : 1 ≤ pf) {vs : List MPValue}
    (hall : ∀ v ∈ vs, SerParses sf pf v) :
    SerParses (sf + 1) (pf + vs.length + 1) (.arr vs) := by
  intro fuel rest h
  match fuel, (by omega : 1 ≤ fuel) with
  | f + 1, _ =>
    show parseV (f + 1) (5 :: vs.length :: ((vs.map (serV sf)).flatten ++ rest)) =
      some (.arr vs, rest)
    have hlist := parseVList_ser hpf vs hall f rest (by omega)
    have hstep : parseV (f + 1)
        (5 :: vs.length :: ((vs.map (serV sf)).flatten ++ rest)) =
        (parseVList f vs.length ((vs.map (serV sf)).flatten ++ rest)).map
          (fun p => (MPValue.arr p.1, p.2)) := rfl
    rw [hstep, hlist]
    rfl

/-- Every serialized value occupies at least one stream entry. -/
theorem serV_length_pos (sf : Nat) (v : MPValue) :
    1 ≤ (serV (sf + 1) v).length := by
  cases v <;> simp [serV]

theorem flatten_ser_length (sf : Nat) (vs : List MPValue) :
    vs.length ≤ ((vs.map (serV (sf + 1))).flatten).length := by
  induction vs with
  | nil => simp
  | cons v vs ih =>
    simp only [List.map_cons, List.flatten_cons, List.length_append,
      List.length_cons]
    have := serV_length_pos sf v
    omega

end Saltpack

namespace Saltpack

/-! ### Parsing the values the pipeline actually serializes -/

theorem length_recipientPairs (major : Nat) (visible : Bool)
    (keys : List Bytes) (eph pk : Bytes) :
    (recipientPairs major visible keys eph pk).length = keys.length := by
  simp [recipientPairs]

theorem serParses_recipientPairs (major : Nat) (visible : Bool)
    (keys : List Bytes) (eph pk : Bytes) :
    ∀ p ∈ recipientPairs major visible keys eph pk, SerParses 4 4 p := by
  intro p hp
  obtain ⟨⟨i, rpub⟩, hmem, rfl⟩ := List.mem_map.mp hp
  have hfirst : SerParses 3 1 (if visible then MPValue.bin rpub else .nil) := by
    cases visible
    · exact serParses_nil 2
    · exact serParses_bin 2 rpub
  have harr := @serParses_arr (3) (1) le_rfl
    ([if visible then MPValue.bin rpub else .nil,
      .bin (crypto_box pk (payload_key_nonce major i) rpub eph)])
    (by
      intro v hv
      simp only [List.mem_cons, List.not_mem_nil, or_false] at hv
      rcases hv with rfl | rfl
      · exact hfirst
      · exact serParses_bin 2 _)
  exact harr

theorem serParses_headerValue (s : Bytes) (keys : List Bytes)
    (visible : Bool) (major : Nat) (eph pk : Bytes) :
    SerParses 6 (keys.length + 12)
      (headerValue s keys visible major eph pk) := by
  have hver : SerParses 5 (keys.length + 5)
      (.arr [.int major, .int (current_minor_version major)]) := by
    refine (@serParses_arr (4) (1) le_rfl _ ?_).mono (by simp)
    intro v hv
    simp only [List.mem_cons, List.not_mem_nil, or_false] at hv
    rcases hv with rfl | rfl
    · exact serParses_int 4 _
    · exact serParses_int 4 _
  have hpairs : SerParses 5 (keys.length + 5)
      (.arr (recipientPairs major visible keys eph pk)) := by
    have := @serParses_arr (4) (4) (by omega) _
      (serParses_recipientPairs major visible keys eph pk)
    rw [length_recipientPairs] at this
    exact this.mono (by omega)
  have hall : ∀ v ∈ [MPValue.str saltpackName,
      .arr [.int major, .int (current_minor_version major)],
      .int 0,
      .bin (crypto_scalarmult_base eph),
      .bin (crypto_secretbox (crypto_scalarmult_base s)
        SENDER_KEY_SECRETBOX_NONCE pk),
      .arr (recipientPairs major visible keys eph pk)],
      SerParses 5 (keys.length + 5) v := by
    intro v hv
    simp only [List.mem_cons, List.not_mem_nil, or_false] at hv
    rcases hv with rfl | rfl | rfl | rfl | rfl | rfl
    · exact (serParses_str 4 _).mono (by omega)
    · exact hver
    · exact (serParses_int 4 _).mono (by omega)
    · exact (serParses_bin 4 _).mono (by omega)
    · exact (serParses_bin 4 _).mono (by omega)
    · exact hpairs
  have harr := @serParses_arr (5) (keys.length + 5) (by omega) _ hall
  simpa [headerValue] using harr.mono (by simp)

theorem serParses_encryptPacket (major : Nat) (hh : Bytes)
    (mac_keys : List Bytes) (pk : Bytes) (n : Nat) (c : Bytes) (f : Bool) :
    SerParses 6 (mac_keys.length + 6)
      (encryptPacket major hh mac_keys pk n c f) := by
  have htags : SerParses 5 (mac_keys.length + 2)
      (.arr ((mac_keys.map (fun mac_key => (hmac_sha512 mac_key
        (crypto_hash (hh ++ (PAYLOAD_NONCE_START ++ u64be n) ++
          (if major = 1 then ([] : Bytes) else if f then [1] else [0]) ++
          crypto_secretbox c (PAYLOAD_NONCE_START ++ u64be n) pk))).take 32)).map
        MPValue.bin)) := by
    have := @serParses_arr (4) (1) le_rfl
      ((mac_keys.map (fun mac_key => (hmac_sha512 mac_key
        (crypto_hash (hh ++ (PAYLOAD_NONCE_START ++ u64be n) ++
          (if major = 1 then ([] : Bytes) else if f then [1] else [0]) ++
          crypto_secretbox c (PAYLOAD_NONCE_START ++ u64be n) pk))).take 32)).map
        MPValue.bin)
      (by
        intro v hv
        obtain ⟨b, -, rfl⟩ := List.mem_map.mp hv
        exact serParses_bin 3 _)
    simpa using this.mono (by simp; omega)
  by_cases hmaj : major = 1
  · subst hmaj
    have harr := @serParses_arr (5) (mac_keys.length + 2) (by omega)
      ([.arr ((mac_keys.map (fun mac_key => (hmac_sha512 mac_key
          (crypto_hash (hh ++ (PAYLOAD_NONCE_START ++ u64be n) ++ ([] : Bytes) ++
            crypto_secretbox c (PAYLOAD_NONCE_START ++ u64be n) pk))).take 32)).map
          MPValue.bin),
        .bin (crypto_secretbox c (PAYLOAD_NONCE_START ++ u64be n) pk)])
      (by
        intro v hv
        simp only [List.mem_cons, List.not_mem_nil, or_false] at hv
        rcases hv with rfl | rfl
        · simpa using htags
        · exact (serParses_bin 4 _).mono (by omega))
    have hpkt : encryptPacket 1 hh mac_keys pk n c f =
        .arr [.arr ((mac_keys.map (fun mac_key => (hmac_sha512 mac_key
          (crypto_hash (hh ++ (PAYLOAD_NONCE_START ++ u64be n) ++ ([] : Bytes) ++
            crypto_secretbox c (PAYLOAD_NONCE_START ++ u64be n) pk))).take 32)).map
          MPValue.bin),
        .bin (crypto_secretbox c (PAYLOAD_NONCE_START ++ u64be n) pk)] := by
      simp [encryptPacket]
    rw [hpkt]
    exact harr.mono (by simp)
  · have harr := @serParses_arr (5) (mac_keys.length + 2) (by omega)
      ([.bool f,
        .arr ((mac_keys.map (fun mac_key => (hmac_sha512 mac_key
          (crypto_hash (hh ++ (PAYLOAD_NONCE_START ++ u64be n) ++
            (if f then [1] else [0]) ++
            crypto_secretbox c (PAYLOAD_NONCE_START ++ u64be n) pk))).take 32)).map
          MPValue.bin),
        .bin (crypto_secretbox c (PAYLOAD_NONCE_START ++ u64be n) pk)])
      (by
        intro v hv
        simp only [List.mem_cons, List.not_mem_nil, or_false] at hv
        rcases hv with rfl | rfl | rfl
        · exact (serParses_bool 4 _).mono (by omega)
        · have := htags
          simp only [hmaj, if_false] at this
          simpa using this
        · exact (serParses_bin 4 _).mono (by omega))
    have hpkt : encryptPacket major hh mac_keys pk n c f =
        .arr [.bool f,
        .arr ((mac_keys.map (fun mac_key => (hmac_sha512 mac_key
          (crypto_hash (hh ++ (PAYLOAD_NONCE_START ++ u64be n) ++
            (if f then [1] else [0]) ++
            crypto_secretbox c (PAYLOAD_NONCE_START ++ u64be n) pk))).take 32)).map
          MPValue.bin),
        .bin (crypto_secretbox c (PAYLOAD_NONCE_START ++ u64be n) pk)] := by
      simp [encryptPacket, hmaj]
    rw [hpkt]
    exact harr.mono (by simp)

end Saltpack

namespace Saltpack

/-! ### Length bounds for the serialized header and packets -/

theorem packb_headerValue_length (s : Bytes) (keys : List Bytes)
    (visible : Bool) (major : Nat) (eph pk : Bytes) :
    keys.length + 12 ≤
      (packb (headerValue s keys visible major eph pk)).length := by
  have hp := flatten_ser_length 3 (recipientPairs major visible keys eph pk)
  rw [length_recipientPairs] at hp
  simp only [packb, headerValue, serV, saltpackName, List.map_cons,
    List.map_nil, List.flatten_cons, List.flatten_nil, List.length_cons,
    List.length_append, List.length_nil, List.append_nil] at hp ⊢
  norm_num at hp ⊢
  omega

theorem packb_pkt_v1_length (tags : List MPValue) (bs : Bytes) :
    tags.length + 6 ≤ (packb (.arr [.arr tags, .bin bs])).length := by
  have hp := flatten_ser_length 3 tags
  simp only [packb, serV, List.map_cons, List.map_nil, List.flatten_cons,
    List.flatten_nil, List.length_cons, List.length_append, List.length_nil,
    List.append_nil] at hp ⊢
  norm_num at hp ⊢
  omega

theorem packb_pkt_v2_length (b : Bool) (tags : List MPValue) (bs : Bytes) :
    tags.length + 6 ≤ (packb (.arr [.bool b, .arr tags, .bin bs])).length := by
  have hp := flatten_ser_length 3 tags
  simp only [packb, serV, List.map_cons, List.map_nil, List.flatten_cons,
    List.flatten_nil, List.length_cons, List.length_append, List.length_nil,
    List.append_nil] at hp ⊢
  norm_num at hp ⊢
  omega

/-! ### Chunker laws -/

theorem chunksLoopGo_flatMap (S major : Nat) (hS : 0 < S) :
    ∀ (fuel : Nat) (rest : Bytes) (c0 : Nat), rest.length ≤ fuel →
      (chunksLoopGo S major fuel rest c0).flatMap (fun c => c.2.1) = rest := by
  intro fuel
  induction fuel with
  | zero =>
    intro rest c0 h
    have : rest = [] := List.eq_nil_of_length_eq_zero (by omega)
    subst this
    rfl
  | succ fuel ih =>
    intro rest c0 h
    by_cases hr : rest.isEmpty
    · rw [List.isEmpty_iff] at hr
      subst hr
      rfl
    · simp only [chunksLoopGo, hr, Bool.false_eq_true, if_false,
        List.flatMap_cons]
      rw [ih (rest.drop S) (c0 + 1) (by simp [List.length_drop]; omega)]
      exact List.take_append_drop S rest

theorem chunks_loop_flatMap (m : Bytes) (S major : Nat) (hS : 0 < S) :
    (chunks_loop m S major).flatMap (fun c => c.2.1) = m := by
  unfold chunks_loop
  by_cases hm : m.isEmpty
  · rw [List.isEmpty_iff] at hm
    subst hm
    rfl
  · simp only [hm, Bool.false_eq_true, if_false, List.flatMap_append]
    rw [chunksLoopGo_flatMap S major hS m.length m 0 le_rfl]
    by_cases hmaj : major = 1 <;> simp [hmaj]

/-- The invariant of the chunk lists `encrypt` feeds to the packet stream:
indices are consecutive from `c0`, every chunk before the last is nonempty
and does not break the decrypt loop, and the last chunk does break it (an
empty chunk, or a true final flag under a version whose decrypt path reads
the flag). -/
def chunksOk (major : Nat) : Nat → List (Nat × Bytes × Bool) → Prop
  | _, [] => False
  | c0, (n, ch, ff) :: rest =>
    n = c0 ∧
      match rest with
      | [] => ch = [] ∨ (major ≠ 1 ∧ ff = true)
      | _ :: _ => ch ≠ [] ∧ (major = 1 ∨ ff = false) ∧ chunksOk major (c0 + 1) rest

theorem chunksOk_single {major c0 n : Nat} {ch : Bytes} {ff : Bool}
    (hn : n = c0) (hterm : ch = [] ∨ (major ≠ 1 ∧ ff = true)) :
    chunksOk major c0 [(n, ch, ff)] := by
  unfold chunksOk
  exact ⟨hn, hterm⟩

theorem chunksOk_cons {major c0 n : Nat} {ch : Bytes} {ff : Bool}
    {tail : List (Nat × Bytes × Bool)} (hn : n = c0) (hch : ch ≠ [])
    (hff : major = 1 ∨ ff = false) (htail : tail ≠ [])
    (h : chunksOk major (c0 + 1) tail) :
    chunksOk major c0 ((n, ch, ff) :: tail) := by
  match tail, htail with
  | p :: rest, _ =>
    unfold chunksOk
    exact ⟨hn, hch, hff, h⟩

theorem chunksLoopGo_ne_nil {S major fuel : Nat} {rest : Bytes} {c0 : Nat}
    (hne : rest ≠ []) (hfuel : rest.length ≤ fuel) :
    chunksLoopGo S major fuel rest c0 ≠ [] := by
  cases fuel with
  | zero =>
    exact absurd (List.eq_nil_of_length_eq_zero (by omega)) hne
  | succ fuel =>
    have hr : rest.isEmpty = false := by simp [List.isEmpty_iff, hne]
    simp [chunksLoopGo, hr]

theorem chunksOk_go_v1 (S : Nat) (hS : 0 < S) :
    ∀ (fuel : Nat) (rest : Bytes) (c0 : Nat), rest ≠ [] → rest.length ≤ fuel →
      chunksOk 1 c0
        (chunksLoopGo S 1 fuel rest c0 ++
          [(c0 + (chunksLoopGo S 1 fuel rest c0).length, [], true)]) := by
  intro fuel
  induction fuel with
  | zero =>
    intro rest c0 hne h
    exact absurd (List.eq_nil_of_length_eq_zero (by omega)) hne
  | succ fuel ih =>
    intro rest c0 hne h
    have hr : rest.isEmpty = false := by simp [List.isEmpty_iff, hne]
    have htake : rest.take S ≠ [] := by
      intro hc
      have hlen := congrArg List.length hc
      simp only [List.length_take, List.length_nil] at hlen
      have hrl : 0 < rest.length := List.length_pos.mpr hne
      omega
    rw [show chunksLoopGo S 1 (fuel + 1) rest c0 =
        (c0, rest.take S, (1 != 1 && decide (rest.length ≤ S))) ::
          chunksLoopGo S 1 fuel (rest.drop S) (c0 + 1) by
      simp [chunksLoopGo, hr]]
    have hffv : ((1 : Nat) != 1 && decide (rest.length ≤ S)) = false := by simp
    rw [hffv]
    by_cases hstop : rest.drop S = []
    · have hgo : chunksLoopGo S 1 fuel (rest.drop S) (c0 + 1) = [] := by
        cases fuel with
        | zero => rfl
        | succ fuel =>
          have : (rest.drop S).isEmpty = true := by simp [hstop]
          simp [chunksLoopGo, this]
      rw [hgo]
      simp only [List.nil_append, List.length_cons, List.length_nil,
        List.cons_append, List.nil_append]
      exact chunksOk_cons rfl htake (Or.inl rfl) (by simp)
        (chunksOk_single (by omega) (Or.inl rfl))
    · have hlen' : (rest.drop S).length ≤ fuel := by
        simp only [List.length_drop]
        omega
      have hih := ih (rest.drop S) (c0 + 1) hstop hlen'
      rw [List.cons_append]
      refine chunksOk_cons rfl htake (Or.inl rfl) (by simp) ?_
      have harith : c0 + (chunksLoopGo S 1 fuel (rest.drop S) (c0 + 1)).length.succ =
          c0 + 1 + (chunksLoopGo S 1 fuel (rest.drop S) (c0 + 1)).length := by
        omega
      simpa [Nat.succ_eq_add_one, ← Nat.add_assoc, Nat.add_comm, Nat.add_left_comm]
        using hih

theorem chunksOk_go_v2 (S major : Nat) (hS : 0 < S) (hmaj : major ≠ 1) :
    ∀ (fuel : Nat) (rest : Bytes) (c0 : Nat), rest ≠ [] → rest.length ≤ fuel →
      chunksOk major c0 (chunksLoopGo S major fuel rest c0) := by
  intro fuel
  induction fuel with
  | zero =>
    intro rest c0 hne h
    exact absurd (List.eq_nil_of_length_eq_zero (by omega)) hne
  | succ fuel ih =>
    intro rest c0 hne h
    have hr : rest.isEmpty = false := by simp [List.isEmpty_iff, hne]
    have htake : rest.take S ≠ [] := by
      intro hc
      have hlen := congrArg List.length hc
      simp only [List.length_take, List.length_nil] at hlen
      have hrl : 0 < rest.length := List.length_pos.mpr hne
      omega
    rw [show chunksLoopGo S major (fuel + 1) rest c0 =
        (c0, rest.take S, (major != 1 && decide (rest.length ≤ S))) ::
          chunksLoopGo S major fuel (rest.drop S) (c0 + 1) by
      simp [chunksLoopGo, hr]]
    by_cases hstop : rest.drop S = []
    · have hle : rest.length ≤ S := by
        have := List.length_drop S rest
        rw [hstop] at this
        simp only [List.length_nil] at this
        omega
      have hffv : (major != 1 && decide (rest.length ≤ S)) = true := by
        simp [hmaj, hle]
      rw [hffv]
      have hgo : chunksLoopGo S major fuel (rest.drop S) (c0 + 1) = [] := by
        cases fuel with
        | zero => rfl
        | succ fuel =>
          have : (rest.drop S).isEmpty = true := by simp [hstop]
          simp [chunksLoopGo, this]
      rw [hgo]
      exact chunksOk_single rfl (Or.inr ⟨hmaj, rfl⟩)
    · have hgt : S < rest.length := by
        by_contra hc
        push_neg at hc
        exact hstop (List.eq_nil_of_length_eq_zero
          (by simp only [List.length_drop]; omega))
      have hffv : (major != 1 && decide (rest.length ≤ S)) = false := by
        simp only [Bool.and_eq_false_iff, decide_eq_false_iff_not]
        right
        omega
      rw [hffv]
      have hlen' : (rest.drop S).length ≤ fuel := by
        simp only [List.length_drop]
        omega
      exact chunksOk_cons rfl htake (Or.inr rfl)
        (chunksLoopGo_ne_nil hstop hlen')
        (ih (rest.drop S) (c0 + 1) hstop hlen')

theorem chunksOk_chunks_loop (m : Bytes) (S major : Nat) (hS : 0 < S) :
    chunksOk major 0 (chunks_loop m S major) := by
  unfold chunks_loop
  by_cases hm : m.isEmpty
  · rw [if_pos hm]
    exact chunksOk_single rfl (Or.inl rfl)
  · rw [if_neg (by simp [hm])]
    have hne : m ≠ [] := by
      intro hc
      subst hc
      simp at hm
    by_cases hmaj : major = 1
    · subst hmaj
      rw [if_pos rfl]
      have := chunksOk_go_v1 S hS m.length m 0 hne le_rfl
      simpa using this
    · rw [if_neg hmaj, List.append_nil]
      exact chunksOk_go_v2 S major hS hmaj m.length m 0 hne le_rfl

end Saltpack

namespace Saltpack

/-! ### MAC keys agree between the two pipeline ends -/

theorem box_peer_eq {R r : Bytes} (h : tripleOf R = scalarTriple r)
    (m n x : Bytes) :
    crypto_box m n R x = crypto_box m n (crypto_scalarmult_base x) r := by
  unfold crypto_box crypto_box_beforenm
  rw [h, tripleOf_base, sortedSix_comm]

theorem take16_crypto_hash (hb : Bytes) :
    (crypto_hash hb).take 16 = mix hb :: List.replicate 15 0 := by
  simp [crypto_hash, List.take_succ_cons, List.take_replicate]

theorem macKeyDecrypt_eq_macKeyEncrypt (major : Nat) (hb : Bytes) (j : Nat)
    {R r : Bytes} (hR : tripleOf R = scalarTriple r) (s e : Bytes) :
    macKeyDecrypt major (crypto_hash hb) j (crypto_scalarmult_base s)
      (crypto_scalarmult_base e) r =
      macKeyEncrypt major (crypto_hash hb) j R s e := by
  by_cases hmaj : major = 1
  · subst hmaj
    unfold macKeyDecrypt macKeyEncrypt
    rw [if_pos rfl, if_pos rfl, box_peer_eq hR]
  · have hset1 : ((crypto_hash hb).take 16).set 15
        (((crypto_hash hb).take 16).getD 15 0 &&& 254) =
        mix hb :: List.replicate 15 0 := by
      rw [take16_crypto_hash]
      norm_num [List.getD_cons_succ, List.set_cons_succ, List.replicate_succ]
    have hset2 : ((crypto_hash hb).take 16).set 15
        (((crypto_hash hb).take 16).getD 15 0 ||| 1) =
        mix hb :: (List.replicate 14 0 ++ [1]) := by
      rw [take16_crypto_hash]
      norm_num [List.getD_cons_succ, List.set_cons_succ, List.replicate_succ]
    have hset3 : (mix hb :: List.replicate 15 (0:Nat)).set 15
        ((mix hb :: List.replicate 15 (0:Nat)).getD 15 0 ||| 1) =
        mix hb :: (List.replicate 14 0 ++ [1]) := by
      norm_num [List.getD_cons_succ, List.set_cons_succ, List.replicate_succ]
    simp only [macKeyDecrypt, macKeyEncrypt, hmaj, if_false, hset1, hset2,
      hset3, box_peer_eq hR]

/-! ### Recipient discovery on an honest header -/

theorem findRecipient_spec (major : Nat) (visible : Bool)
    (eph payload_key r : Bytes) :
    ∀ (keys : List Bytes) (start : Nat),
      (∃ R ∈ keys, crypto_box_beforenm R eph =
        crypto_box_beforenm (crypto_scalarmult_base eph) r) →
      ∃ i R, keys[i]? = some R ∧ tripleOf R = scalarTriple r ∧
        findRecipient major
          (crypto_box_beforenm (crypto_scalarmult_base eph) r)
          ((keys.enumFrom start).map (fun p =>
            MPValue.arr [if visible then .bin p.2 else .nil,
              .bin (crypto_box payload_key (payload_key_nonce major p.1)
                p.2 eph)])) start = .ok (start + i, payload_key) := by
  intro keys
  induction keys with
  | nil =>
    rintro start ⟨R, hR, -⟩
    cases hR
  | cons R0 keys ih =>
    intro start hex
    have hcons : ((R0 :: keys).enumFrom start).map (fun p =>
        MPValue.arr [if visible then .bin p.2 else .nil,
          .bin (crypto_box payload_key (payload_key_nonce major p.1)
            p.2 eph)]) =
        MPValue.arr [if visible then .bin R0 else .nil,
          .bin (crypto_box payload_key (payload_key_nonce major start)
            R0 eph)] ::
        ((keys.enumFrom (start + 1)).map (fun p =>
          MPValue.arr [if visible then .bin p.2 else .nil,
            .bin (crypto_box payload_key (payload_key_nonce major p.1)
              p.2 eph)])) := by
      simp [List.enumFrom]
    rw [hcons]
    have hfr : findRecipient major
        (crypto_box_beforenm (crypto_scalarmult_base eph) r)
        (MPValue.arr [if visible then .bin R0 else .nil,
          .bin (crypto_box payload_key (payload_key_nonce major start)
            R0 eph)] ::
          ((keys.enumFrom (start + 1)).map (fun p =>
            MPValue.arr [if visible then .bin p.2 else .nil,
              .bin (crypto_box payload_key (payload_key_nonce major p.1)
                p.2 eph)]))) start =
        match crypto_box_open_afternm
            (crypto_box payload_key (payload_key_nonce major start) R0 eph)
            (payload_key_nonce major start)
            (crypto_box_beforenm (crypto_scalarmult_base eph) r) with
        | some pk' => .ok (start, pk')
        | none =>
          findRecipient major
            (crypto_box_beforenm (crypto_scalarmult_base eph) r)
            ((keys.enumFrom (start + 1)).map (fun p =>
              MPValue.arr [if visible then .bin p.2 else .nil,
                .bin (crypto_box payload_key (payload_key_nonce major p.1)
                  p.2 eph)])) (start + 1) := by
      cases visible <;> rfl
    match hopen : crypto_box_open_afternm
        (crypto_box payload_key (payload_key_nonce major start) R0 eph)
        (payload_key_nonce major start)
        (crypto_box_beforenm (crypto_scalarmult_base eph) r) with
    | some pk' =>
      have hct := crypto_secretbox_open_eq_some hopen
      have hinj := crypto_secretbox_inj hct.symm
      obtain ⟨hpk, -, hkey⟩ := hinj
      have htr : tripleOf R0 = scalarTriple r := beforenm_peer_eq hkey.symm
      refine ⟨0, R0, by simp, htr, ?_⟩
      rw [hfr, hopen]
      rw [hpk]
      simp
    | none =>
      have hnot : crypto_box_beforenm R0 eph ≠
          crypto_box_beforenm (crypto_scalarmult_base eph) r := by
        intro hc
        rw [show crypto_box payload_key (payload_key_nonce major start) R0 eph =
            crypto_secretbox payload_key (payload_key_nonce major start)
              (crypto_box_beforenm R0 eph) from rfl, hc] at hopen
        rw [show crypto_box_open_afternm
            (crypto_secretbox payload_key (payload_key_nonce major start)
              (crypto_box_beforenm (crypto_scalarmult_base eph) r))
            (payload_key_nonce major start)
            (crypto_box_beforenm (crypto_scalarmult_base eph) r) =
            some payload_key from
          crypto_secretbox_open_roundtrip _ _ _] at hopen
        cases hopen
      obtain ⟨R, hRmem, hReq⟩ := hex
      have hRmem' : R ∈ keys := by
        rcases List.mem_cons.mp hRmem with rfl | h
        · exact absurd hReq hnot
        · exact h
      obtain ⟨i, R', h1, h2, h3⟩ := ih (start + 1) ⟨R, hRmem', hReq⟩
      refine ⟨i + 1, R', by simpa using h1, h2, ?_⟩
      rw [hfr, hopen, show start + (i + 1) = start + 1 + i from by omega]
      exact h3

end Saltpack

namespace Saltpack

/-! ### The packet loop inverts the packet stream -/

/-- The hash every recipient authenticates for one packet (step 3 of the
payload codec). -/
def packetHash (major : Nat) (hh : Bytes) (pk : Bytes) (n : Nat) (c : Bytes)
    (f : Bool) : Bytes :=
  crypto_hash (hh ++ (PAYLOAD_NONCE_START ++ u64be n) ++
    (if major = 1 then ([] : Bytes) else if f then [1] else [0]) ++
    crypto_secretbox c (PAYLOAD_NONCE_START ++ u64be n) pk)

/-- The authenticator list of one packet. -/
def packetTags (major : Nat) (hh : Bytes) (mac_keys : List Bytes)
    (pk : Bytes) (n : Nat) (c : Bytes) (f : Bool) : List MPValue :=
  (mac_keys.map (fun mac_key =>
    (hmac_sha512 mac_key (packetHash major hh pk n c f)).take 32)).map
    MPValue.bin

theorem packetTags_length (major : Nat) (hh : Bytes) (mac_keys : List Bytes)
    (pk : Bytes) (n : Nat) (c : Bytes) (f : Bool) :
    (packetTags major hh mac_keys pk n c f).length = mac_keys.length := by
  simp [packetTags]

theorem packetTags_getElem (major : Nat) (hh : Bytes) (mac_keys : List Bytes)
    (pk : Bytes) (n : Nat) (c : Bytes) (f : Bool) (j : Nat) :
    (packetTags major hh mac_keys pk n c f)[j]? =
      (mac_keys[j]?).map (fun mk =>
        MPValue.bin ((hmac_sha512 mk (packetHash major hh pk n c f)).take 32)) := by
  simp [packetTags, List.getElem?_map]
  rfl

theorem encryptPacket_eq_v1 (hh : Bytes) (mac_keys : List Bytes) (pk : Bytes)
    (n : Nat) (c : Bytes) (f : Bool) :
    encryptPacket 1 hh mac_keys pk n c f =
      .arr [.arr (packetTags 1 hh mac_keys pk n c f),
        .bin (crypto_secretbox c (PAYLOAD_NONCE_START ++ u64be n) pk)] := by
  simp [encryptPacket, packetTags, packetHash]

theorem encryptPacket_eq_v2 {major : Nat} (hmaj : major ≠ 1) (hh : Bytes)
    (mac_keys : List Bytes) (pk : Bytes) (n : Nat) (c : Bytes) (f : Bool) :
    encryptPacket major hh mac_keys pk n c f =
      .arr [.bool f, .arr (packetTags major hh mac_keys pk n c f),
        .bin (crypto_secretbox c (PAYLOAD_NONCE_START ++ u64be n) pk)] := by
  simp [encryptPacket, packetTags, packetHash, hmaj]

theorem packb_encryptPacket_length (major : Nat) (hh : Bytes)
    (mac_keys : List Bytes) (pk : Bytes) (n : Nat) (c : Bytes) (f : Bool) :
    mac_keys.length + 6 ≤
      (packb (encryptPacket major hh mac_keys pk n c f)).length := by
  by_cases hmaj : major = 1
  · subst hmaj
    rw [encryptPacket_eq_v1]
    have h := packb_pkt_v1_length (packetTags 1 hh mac_keys pk n c f)
      (crypto_secretbox c (PAYLOAD_NONCE_START ++ u64be n) pk)
    rwa [packetTags_length] at h
  · rw [encryptPacket_eq_v2 hmaj]
    have h := packb_pkt_v2_length f (packetTags major hh mac_keys pk n c f)
      (crypto_secretbox c (PAYLOAD_NONCE_START ++ u64be n) pk)
    rwa [packetTags_length] at h

theorem packetLoop_step (major j : Nat) (hh pk mk : Bytes)
    (mac_keys : List Bytes) (hmk : mac_keys[j]? = some mk)
    (n : Nat) (ch : Bytes) (ff : Bool) (rest : Bytes) (f : Nat) :
    packetLoop major j hh mk pk (f + 1)
      (packb (encryptPacket major hh mac_keys pk n ch ff) ++ rest) n =
      (if ch.isEmpty || (if major = 1 then false else ff) then .ok ch
       else (packetLoop major j hh mk pk f rest (n + 1)).map (ch ++ ·)) := by
  have hlenpkt := packb_encryptPacket_length major hh mac_keys pk n ch ff
  have hparse : parseV
      (packb (encryptPacket major hh mac_keys pk n ch ff) ++ rest).length
      (packb (encryptPacket major hh mac_keys pk n ch ff) ++ rest) =
      some (encryptPacket major hh mac_keys pk n ch ff, rest) :=
    serParses_encryptPacket major hh mac_keys pk n ch ff _ rest
      (by simp only [List.length_append]; omega)
  by_cases hmaj : major = 1
  · subst hmaj
    simp only [packetLoop, hparse]
    rw [encryptPacket_eq_v1]
    simp [packetTags_getElem, hmk, packetHash, crypto_secretbox_open_roundtrip,
      MPValue.truthy]
  · simp only [packetLoop, hparse]
    rw [encryptPacket_eq_v2 hmaj]
    simp [hmaj, packetTags_getElem, hmk, packetHash,
      crypto_secretbox_open_roundtrip, MPValue.truthy]

end Saltpack

namespace Saltpack

theorem packetLoop_encrypt (major j : Nat) (hh pk mk : Bytes)
    (mac_keys : List Bytes) (hmk : mac_keys[j]? = some mk) :
    ∀ (chs : List (Nat × Bytes × Bool)) (c0 fuel : Nat),
      chunksOk major c0 chs →
      (chs.flatMap (fun c => packb (encryptPacket major hh mac_keys pk
        c.1 c.2.1 c.2.2))).length ≤ fuel →
      packetLoop major j hh mk pk fuel
        (chs.flatMap (fun c => packb (encryptPacket major hh mac_keys pk
          c.1 c.2.1 c.2.2))) c0 =
        .ok (chs.flatMap (fun c => c.2.1)) := by
  intro chs
  induction chs with
  | nil =>
    intro c0 fuel hok
    exact False.elim hok
  | cons c chs ih =>
    intro c0 fuel hok hfuel
    obtain ⟨n, ch, ff⟩ := c
    have hstream : ((n, ch, ff) :: chs).flatMap (fun c =>
        packb (encryptPacket major hh mac_keys pk c.1 c.2.1 c.2.2)) =
        packb (encryptPacket major hh mac_keys pk n ch ff) ++
          chs.flatMap (fun c =>
            packb (encryptPacket major hh mac_keys pk c.1 c.2.1 c.2.2)) := by
      simp
    rw [hstream] at hfuel ⊢
    have hplen := packb_encryptPacket_length major hh mac_keys pk n ch ff
    have hfuelpos : 1 ≤ fuel := by
      simp only [List.length_append] at hfuel
      omega
    obtain ⟨f, rfl⟩ : ∃ f, fuel = f + 1 := ⟨fuel - 1, by omega⟩
    cases chs with
    | nil =>
      obtain ⟨hn, hterm⟩ : n = c0 ∧ (ch = [] ∨ (major ≠ 1 ∧ ff = true)) := hok
      subst hn
      rw [packetLoop_step major j hh pk mk mac_keys hmk n ch ff _ f]
      have hcond : (ch.isEmpty || (if major = 1 then false else ff)) = true := by
        rcases hterm with h | ⟨hmaj, hff⟩
        · simp [h]
        · simp [hff, if_neg hmaj]
      rw [if_pos hcond]
      simp
    | cons c' chs' =>
      obtain ⟨hn, hch, hff, hok'⟩ : n = c0 ∧ ch ≠ [] ∧
          (major = 1 ∨ ff = false) ∧ chunksOk major (c0 + 1) (c' :: chs') := hok
      subst hn
      rw [packetLoop_step major j hh pk mk mac_keys hmk n ch ff _ f]
      have hcond : (ch.isEmpty || (if major = 1 then false else ff)) = false := by
        rcases hff with hmaj | hffv
        · simp [hmaj, List.isEmpty_iff, hch]
        · simp [hffv, List.isEmpty_iff, hch]
      rw [if_neg (by rw [hcond]; exact Bool.false_ne_true)]
      have hfuel' : ((c' :: chs').flatMap (fun c =>
          packb (encryptPacket major hh mac_keys pk c.1 c.2.1 c.2.2))).length ≤ f := by
        simp only [List.length_append] at hfuel
        omega
      rw [ih (n + 1) f hok' hfuel']
      rfl

end Saltpack

namespace Saltpack

set_option maxHeartbeats 2000000 in
theorem decrypt_encrypt (s e pk r m : Bytes) (keys : List Bytes)
    (S : Nat) (visible : Bool) (major : Nat)
    (hS : 0 < S) (hmaj : major = 1 ∨ major = 2)
    (hr : crypto_scalarmult_base r ∈ keys) :
    decrypt (encrypt s keys m S visible major e pk) r = .ok m := by
  show decrypt
      (packb (.bin (packb (headerValue s keys visible major e pk))) ++
        (chunks_loop m S major).flatMap (fun c =>
          packb (encryptPacket major
            (crypto_hash (packb (headerValue s keys visible major e pk)))
            (keys.enum.map (fun p => macKeyEncrypt major
              (crypto_hash (packb (headerValue s keys visible major e pk)))
              p.1 p.2 s e))
            pk c.1 c.2.1 c.2.2))) r = .ok m
  have hparse1 : parseV
      (packb (.bin (packb (headerValue s keys visible major e pk))) ++
        (chunks_loop m S major).flatMap (fun c =>
          packb (encryptPacket major
            (crypto_hash (packb (headerValue s keys visible major e pk)))
            (keys.enum.map (fun p => macKeyEncrypt major
              (crypto_hash (packb (headerValue s keys visible major e pk)))
              p.1 p.2 s e))
            pk c.1 c.2.1 c.2.2))).length
      (packb (.bin (packb (headerValue s keys visible major e pk))) ++
        (chunks_loop m S major).flatMap (fun c =>
          packb (encryptPacket major
            (crypto_hash (packb (headerValue s keys visible major e pk)))
            (keys.enum.map (fun p => macKeyEncrypt major
              (crypto_hash (packb (headerValue s keys visible major e pk)))
              p.1 p.2 s e))
            pk c.1 c.2.1 c.2.2))) =
      some (.bin (packb (headerValue s keys visible major e pk)),
        (chunks_loop m S major).flatMap (fun c =>
          packb (encryptPacket major
            (crypto_hash (packb (headerValue s keys visible major e pk)))
            (keys.enum.map (fun p => macKeyEncrypt major
              (crypto_hash (packb (headerValue s keys visible major e pk)))
              p.1 p.2 s e))
            pk c.1 c.2.1 c.2.2))) := by
    apply serParses_bin 5 (packb (headerValue s keys visible major e pk))
    simp [packb, serV]
  have hparse2 : parseV
      (packb (headerValue s keys visible major e pk)).length
      (packb (headerValue s keys visible major e pk)) =
      some (headerValue s keys visible major e pk, []) := by
    have h := serParses_headerValue s keys visible major e pk
      (packb (headerValue s keys visible major e pk)).length []
      (packb_headerValue_length s keys visible major e pk)
    rwa [List.append_nil] at h
  obtain ⟨i, R, hkeyi, htr, hfind⟩ :=
    findRecipient_spec major visible e pk r keys 0
      ⟨crypto_scalarmult_base r, hr, beforenm_symm r e⟩
  rw [Nat.zero_add] at hfind
  have hfind' : findRecipient major
      (crypto_box_beforenm (crypto_scalarmult_base e) r)
      (recipientPairs major visible keys e pk) 0 = .ok (i, pk) := hfind
  have hdes : destructureHeader (headerValue s keys visible major e pk) =
      some ⟨.str saltpackName, .int major, .int (current_minor_version major),
        .int 0, .bin (crypto_scalarmult_base e),
        .bin (crypto_secretbox (crypto_scalarmult_base s)
          SENDER_KEY_SECRETBOX_NONCE pk),
        .arr (recipientPairs major visible keys e pk)⟩ := rfl
  simp only [decrypt, hparse1]
  simp only [requireBin]
  simp only [hparse2]
  simp only [hdes]
  have hcf : checkFormatName (.str saltpackName) = .ok () := by
    simp [checkFormatName]
  have hcv : checkMajorVersion (.int major) = .ok major := by
    have hunf : checkMajorVersion (.int major) =
        if major = 1 ∨ major = 2 then Except.ok major
        else Except.error DecryptError.badVersion := rfl
    rw [hunf, if_pos hmaj]
  have hcm : checkMode (.int 0) = .ok () := rfl
  simp only [hcf, hcv, hcm, hfind', crypto_secretbox_open_roundtrip]
  generalize packb (headerValue s keys visible major e pk) = hb
  rw [macKeyDecrypt_eq_macKeyEncrypt major hb i htr s e]
  have hmk : (keys.enum.map (fun p => macKeyEncrypt major
      (crypto_hash hb) p.1 p.2 s e))[i]? =
      some (macKeyEncrypt major (crypto_hash hb) i R s e) := by
    simp [List.getElem?_map, List.getElem?_enum, hkeyi]
  generalize macKeyEncrypt major (crypto_hash hb) i R s e = mkE at hmk ⊢
  generalize keys.enum.map (fun p => macKeyEncrypt major
    (crypto_hash hb) p.1 p.2 s e) = mkeys at hmk ⊢
  have hloop := packetLoop_encrypt major i (crypto_hash hb) pk mkE mkeys
    hmk (chunks_loop m S major) 0
    ((chunks_loop m S major).flatMap (fun c =>
      packb (encryptPacket major (crypto_hash hb) mkeys
        pk c.1 c.2.1 c.2.2))).length
    (chunksOk_chunks_loop m S major hS) le_rfl
  rw [chunks_loop_flatMap m S major hS] at hloop
  exact hloop

end Saltpack

namespace Saltpack

/-! ### Crafted headers: the generic parse and length lemmas -/

/-- A header array of the six-element shape `decrypt` destructures, with
arbitrary field contents. -/
def craftedHeader (sname : List Nat) (maj minor md : Nat) (eph ssb : Bytes)
    (pairs : List MPValue) : MPValue :=
  .arr [.str sname, .arr [.int maj, .int minor], .int md, .bin eph,
    .bin ssb, .arr pairs]

theorem serParses_craftedHeader (sname : List Nat) (maj minor md : Nat)
    (eph ssb : Bytes) (pairs : List MPValue)
    (hpairs : ∀ p ∈ pairs, SerParses 4 4 p) :
    SerParses 6 (pairs.length + 12)
      (craftedHeader sname maj minor md eph ssb pairs) := by
  have hver : SerParses 5 (pairs.length + 5) (.arr [.int maj, .int minor]) := by
    refine (@serParses_arr (4) (1) le_rfl _ ?_).mono (by simp)
    intro v hv
    simp only [List.mem_cons, List.not_mem_nil, or_false] at hv
    rcases hv with rfl | rfl
    · exact serParses_int 4 _
    · exact serParses_int 4 _
  have hps : SerParses 5 (pairs.length + 5) (.arr pairs) := by
    have := @serParses_arr (4) (4) (by omega) _ hpairs
    exact this.mono (by omega)
  have hall : ∀ v ∈ [MPValue.str sname, .arr [.int maj, .int minor],
      .int md, .bin eph, .bin ssb, .arr pairs],
      SerParses 5 (pairs.length + 5) v := by
    intro v hv
    simp only [List.mem_cons, List.not_mem_nil, or_false] at hv
    rcases hv with rfl | rfl | rfl | rfl | rfl | rfl
    · exact (serParses_str 4 _).mono (by omega)
    · exact hver
    · exact (serParses_int 4 _).mono (by omega)
    · exact (serParses_bin 4 _).mono (by omega)
    · exact (serParses_bin 4 _).mono (by omega)
    · exact hps
  have harr := @serParses_arr (5) (pairs.length + 5) (by omega) _ hall
  simpa [craftedHeader] using harr.mono (by simp)

theorem packb_craftedHeader_length (sname : List Nat) (maj minor md : Nat)
    (eph ssb : Bytes) (pairs : List MPValue) :
    pairs.length + 12 ≤
      (packb (craftedHeader sname maj minor md eph ssb pairs)).length := by
  have hp := flatten_ser_length 3 pairs
  simp only [packb, craftedHeader, serV, List.map_cons, List.map_nil,
    List.flatten_cons, List.flatten_nil, List.length_cons,
    List.length_append, List.length_nil, List.append_nil] at hp ⊢
  norm_num at hp ⊢
  omega

/-- The stage of `decrypt` that runs once the three header checks have
passed: recipient discovery, sender-secretbox opening, MAC-key derivation
and the packet loop. -/
def decryptTail (maj : Nat) (hh ssb eph r t : Bytes)
    (pairs : List MPValue) : Except DecryptError Bytes :=
  match findRecipient maj (crypto_box_beforenm eph r) pairs 0 with
  | .error e => .error e
  | .ok found =>
    match crypto_secretbox_open ssb SENDER_KEY_SECRETBOX_NONCE found.2 with
    | none => .error .cryptoFailure
    | some sender_public =>
      packetLoop maj found.1 hh
        (macKeyDecrypt maj hh found.1 sender_public eph r)
        found.2 t.length t 0

/-- `decrypt` on a crafted six-element header reduces to the three header
checks followed by the recipient and packet processing. -/
theorem decrypt_crafted_step (sname : List Nat) (maj minor md : Nat)
    (eph ssb : Bytes) (pairs : List MPValue)
    (hpairs : ∀ p ∈ pairs, SerParses 4 4 p) (r t : Bytes) :
    decrypt (packb (.bin (packb
      (craftedHeader sname maj minor md eph ssb pairs))) ++ t) r =
      (match checkFormatName (.str sname) with
      | .error e => .error e
      | .ok _ =>
        match checkMajorVersion (.int maj) with
        | .error e => .error e
        | .ok major_version =>
          match checkMode (.int md) with
          | .error e => .error e
          | .ok _ =>
            decryptTail major_version
              (crypto_hash (packb
                (craftedHeader sname maj minor md eph ssb pairs)))
              ssb eph r t pairs) := by
  have hparse1 : parseV
      (packb (.bin (packb (craftedHeader sname maj minor md eph ssb pairs)))
        ++ t).length
      (packb (.bin (packb (craftedHeader sname maj minor md eph ssb pairs)))
        ++ t) =
      some (.bin (packb (craftedHeader sname maj minor md eph ssb pairs)), t) := by
    apply serParses_bin 5
    simp [packb, serV]
  have hparse2 : parseV
      (packb (craftedHeader sname maj minor md eph ssb pairs)).length
      (packb (craftedHeader sname maj minor md eph ssb pairs)) =
      some (craftedHeader sname maj minor md eph ssb pairs, []) := by
    have h := serParses_craftedHeader sname maj minor md eph ssb pairs hpairs
      (packb (craftedHeader sname maj minor md eph ssb pairs)).length []
      (packb_craftedHeader_length sname maj minor md eph ssb pairs)
    rwa [List.append_nil] at h
  have hdes : destructureHeader (craftedHeader sname maj minor md eph ssb pairs) =
      some ⟨.str sname, .int maj, .int minor, .int md, .bin eph, .bin ssb,
        .arr pairs⟩ := rfl
  simp only [decrypt, hparse1]
  simp only [requireBin]
  simp only [hparse2]
  simp only [hdes]
  simp only [decryptTail]

end Saltpack

namespace Saltpack

/-! ### Discovery exhaustion and the error ranges of the later stages -/

theorem findRecipient_fails (major : Nat) (opener : Bytes) :
    ∀ (boxes : List Bytes) (start : Nat),
      (∀ i b, boxes[i]? = some b →
        crypto_box_open_afternm b (payload_key_nonce major (start + i))
          opener = none) →
      findRecipient major opener
        ((boxes.enumFrom start).map (fun p =>
          MPValue.arr [.nil, .bin p.2])) start =
        .error .noMatchingRecipient := by
  intro boxes
  induction boxes with
  | nil => intro start _; rfl
  | cons b0 boxes ih =>
    intro start hfail
    have h0 : crypto_box_open_afternm b0 (payload_key_nonce major start)
        opener = none := by
      have := hfail 0 b0 (by simp)
      simpa using this
    have hcons : ((b0 :: boxes).enumFrom start).map (fun p =>
        MPValue.arr [.nil, .bin p.2]) =
        MPValue.arr [.nil, .bin b0] ::
          ((boxes.enumFrom (start + 1)).map (fun p =>
            MPValue.arr [.nil, .bin p.2])) := by
      simp [List.enumFrom]
    rw [hcons]
    have hstep : findRecipient major opener
        (MPValue.arr [.nil, .bin b0] ::
          ((boxes.enumFrom (start + 1)).map (fun p =>
            MPValue.arr [.nil, .bin p.2]))) start =
        match crypto_box_open_afternm b0 (payload_key_nonce major start)
            opener with
        | some payload_key => .ok (start, payload_key)
        | none =>
          findRecipient major opener
            ((boxes.enumFrom (start + 1)).map (fun p =>
              MPValue.arr [.nil, .bin p.2])) (start + 1) := rfl
    rw [hstep, h0]
    apply ih (start + 1)
    intro i b hib
    have := hfail (i + 1) b (by simpa using hib)
    rw [show start + 1 + i = start + (i + 1) from by omega]
    exact this

theorem findRecipient_error_range (major : Nat) (opener : Bytes) :
    ∀ (pairs : List MPValue) (start : Nat) (err : DecryptError),
      findRecipient major opener pairs start = .error err →
      err = .noMatchingRecipient ∨ err = .malformed := by
  intro pairs
  induction pairs with
  | nil =>
    intro start err h
    exact Or.inl (by cases h; rfl)
  | cons pair rest ih =>
    intro start err h
    match pair with
    | .nil => exact Or.inr (by cases h; rfl)
    | .bool b => exact Or.inr (by cases h; rfl)
    | .int n => exact Or.inr (by cases h; rfl)
    | .str s => exact Or.inr (by cases h; rfl)
    | .bin bs => exact Or.inr (by cases h; rfl)
    | .arr [] => exact Or.inr (by cases h; rfl)
    | .arr [x] => exact Or.inr (by cases h; rfl)
    | .arr (x :: pkb :: more) =>
      match pkb with
      | .nil => exact Or.inr (by cases h; rfl)
      | .bool b => exact Or.inr (by cases h; rfl)
      | .int n => exact Or.inr (by cases h; rfl)
      | .str s => exact Or.inr (by cases h; rfl)
      | .arr vs => exact Or.inr (by cases h; rfl)
      | .bin payload_key_box =>
        have hunf : findRecipient major opener
            (MPValue.arr (x :: .bin payload_key_box :: more) :: rest) start =
            match crypto_box_open_afternm payload_key_box
                (payload_key_nonce major start) opener with
            | some payload_key => .ok (start, payload_key)
            | none => findRecipient major opener rest (start + 1) := rfl
        rw [hunf] at h
        match hopen : crypto_box_open_afternm payload_key_box
            (payload_key_nonce major start) opener with
        | some pk' => rw [hopen] at h; cases h
        | none =>
          rw [hopen] at h
          exact ih (start + 1) err h

theorem except_map_error {α β : Type} {f : α → β} {res : Except DecryptError α}
    {err : DecryptError} (h : Except.map f res = .error err) :
    res = .error err := by
  cases res with
  | error e => cases h; rfl
  | ok a => cases h

theorem packetLoop_error_range (major j : Nat) (hh mk pk : Bytes) :
    ∀ (fuel : Nat) (stream : Bytes) (c : Nat) (err : DecryptError),
      packetLoop major j hh mk pk fuel stream c = .error err →
      err = .malformed ∨ err = .hmacFailure ∨ err = .cryptoFailure := by
  intro fuel
  induction fuel with
  | zero =>
    intro stream c err h
    exact Or.inl (by cases h; rfl)
  | succ fuel ih =>
    intro stream c err h
    simp only [packetLoop] at h
    repeat' split at h
    all_goals first
      | (cases h <;> first
          | exact Or.inl rfl
          | exact Or.inr (Or.inl rfl)
          | exact Or.inr (Or.inr rfl))
      | exact ih _ _ _ (except_map_error h)

end Saltpack

namespace Saltpack

theorem serParses_nilPair (b : Bytes) :
    SerParses 4 4 (.arr [.nil, .bin b]) := by
  have := @serParses_arr (3) (1) le_rfl
    ([MPValue.nil, .bin b])
    (by
      intro v hv
      simp only [List.mem_cons, List.not_mem_nil, or_false] at hv
      rcases hv with rfl | rfl
      · exact serParses_nil 2
      · exact serParses_bin 2 b)
  exact this

theorem serParses_nilPairs (boxes : List Bytes) (start : Nat) :
    ∀ p ∈ (boxes.enumFrom start).map (fun p => MPValue.arr [.nil, .bin p.2]),
      SerParses 4 4 p := by
  intro p hp
  obtain ⟨⟨i, b⟩, -, rfl⟩ := List.mem_map.mp hp
  exact serParses_nilPair b

/-- C2: when no recipient slot in the header decrypts the payload key with
the given private key — each slot tried in order, `box_open` failures
silently skipped, the empty recipient list included — `decrypt` fails with
the no-matching-recipient error, a kind distinct from every other error
kind. -/
theorem claimC2 (maj minor : Nat) (eph ssb r t : Bytes) (boxes : List Bytes)
    (hmaj : maj = 1 ∨ maj = 2)
    (hfail : ∀ i b, boxes[i]? = some b →
      crypto_box_open_afternm b (payload_key_nonce maj i)
        (crypto_box_beforenm eph r) = none) :
    decrypt (packb (.bin (packb (craftedHeader saltpackName maj minor 0
        eph ssb ((boxes.enumFrom 0).map (fun p =>
          MPValue.arr [.nil, .bin p.2]))))) ++ t) r =
      .error .noMatchingRecipient ∧
    (DecryptError.noMatchingRecipient ≠ .badFormat ∧
     DecryptError.noMatchingRecipient ≠ .badVersion ∧
     DecryptError.noMatchingRecipient ≠ .badMode ∧
     DecryptError.noMatchingRecipient ≠ .hmacFailure ∧
     DecryptError.noMatchingRecipient ≠ .cryptoFailure ∧
     DecryptError.noMatchingRecipient ≠ .malformed) := by
  refine ⟨?_, by decide, by decide, by decide, by decide, by decide, by decide⟩
  rw [decrypt_crafted_step saltpackName maj minor 0 eph ssb _
    (serParses_nilPairs boxes 0) r t]
  have hcf : checkFormatName (.str saltpackName) = .ok () := by
    simp [checkFormatName]
  have hcv : checkMajorVersion (.int maj) = .ok maj := by
    have hunf : checkMajorVersion (.int maj) =
        if maj = 1 ∨ maj = 2 then Except.ok maj
        else Except.error DecryptError.badVersion := rfl
    rw [hunf, if_pos hmaj]
  have hfr := findRecipient_fails maj (crypto_box_beforenm eph r) boxes 0
    (by
      intro i b hib
      have := hfail i b hib
      simpa using this)
  simp only [hcf, hcv, checkMode, decryptTail, hfr]

theorem claimC2_witness :
    decrypt (packb (.bin (packb (craftedHeader saltpackName 2 0 0
        [1] [2] ((([] : List Bytes).enumFrom 0).map (fun p =>
          MPValue.arr [.nil, .bin p.2]))))) ++ []) [3] =
      .error .noMatchingRecipient ∧
    (DecryptError.noMatchingRecipient ≠ .badFormat ∧
     DecryptError.noMatchingRecipient ≠ .badVersion ∧
     DecryptError.noMatchingRecipient ≠ .badMode ∧
     DecryptError.noMatchingRecipient ≠ .hmacFailure ∧
     DecryptError.noMatchingRecipient ≠ .cryptoFailure ∧
     DecryptError.noMatchingRecipient ≠ .malformed) :=
  claimC2 2 0 [1] [2] [3] [] [] (Or.inr rfl)
    (by intro i b hb; simp at hb)

end Saltpack

namespace Saltpack

/-- The ciphertext whose header is the crafted six-element array over a
nil-public recipient-pair list. -/
def craftedInput (sname : List Nat) (maj minor md : Nat) (eph ssb : Bytes)
    (boxes : List Bytes) : Bytes :=
  packb (.bin (packb (craftedHeader sname maj minor md eph ssb
    ((boxes.enumFrom 0).map (fun p => MPValue.arr [.nil, .bin p.2])))))

theorem decryptTail_not_header_error (maj : Nat) (hh ssb eph r t : Bytes)
    (pairs : List MPValue) :
    decryptTail maj hh ssb eph r t pairs ≠ .error .badFormat ∧
      decryptTail maj hh ssb eph r t pairs ≠ .error .badVersion ∧
      decryptTail maj hh ssb eph r t pairs ≠ .error .badMode := by
  refine ⟨?_, ?_, ?_⟩ <;>
    · intro hc
      simp only [decryptTail] at hc
      split at hc
      · rename_i e heq
        cases hc
        rcases findRecipient_error_range _ _ _ _ _ heq with h | h <;> cases h
      · split at hc
        · cases hc
        · rcases packetLoop_error_range _ _ _ _ _ _ _ _ _ hc
            with h | h | h <;> cases h

/-- C8: after parsing the header array, `decrypt` rejects with three
distinct error kinds — the bad-format error when the format name differs
from saltpack, the bad-version error when the major version is neither 1
nor 2, the bad-mode error when the mode is not 0 — and otherwise never
produces any of those three errors. -/
theorem claimC8 :
    (∀ (sname : List Nat) (maj minor md : Nat) (eph ssb : Bytes)
        (boxes : List Bytes) (r t : Bytes), sname ≠ saltpackName →
      decrypt (craftedInput sname maj minor md eph ssb boxes ++ t) r =
        .error .badFormat) ∧
    (∀ (maj minor md : Nat) (eph ssb : Bytes) (boxes : List Bytes)
        (r t : Bytes), maj ≠ 1 → maj ≠ 2 →
      decrypt (craftedInput saltpackName maj minor md eph ssb boxes ++ t) r =
        .error .badVersion) ∧
    (∀ (maj minor md : Nat) (eph ssb : Bytes) (boxes : List Bytes)
        (r t : Bytes), maj = 1 ∨ maj = 2 → md ≠ 0 →
      decrypt (craftedInput saltpackName maj minor md eph ssb boxes ++ t) r =
        .error .badMode) ∧
    (∀ (maj minor : Nat) (eph ssb : Bytes) (boxes : List Bytes)
        (r t : Bytes), maj = 1 ∨ maj = 2 →
      decrypt (craftedInput saltpackName maj minor 0 eph ssb boxes ++ t) r ≠
          .error .badFormat ∧
        decrypt (craftedInput saltpackName maj minor 0 eph ssb boxes ++ t) r ≠
          .error .badVersion ∧
        decrypt (craftedInput saltpackName maj minor 0 eph ssb boxes ++ t) r ≠
          .error .badMode) := by
  refine ⟨?_, ?_, ?_, ?_⟩
  · intro sname maj minor md eph ssb boxes r t hne
    rw [craftedInput, decrypt_crafted_step sname maj minor md eph ssb _
      (serParses_nilPairs boxes 0) r t]
    have hcf : checkFormatName (.str sname) = .error .badFormat := by
      simp [checkFormatName, hne]
    simp only [hcf]
  · intro maj minor md eph ssb boxes r t h1 h2
    rw [craftedInput, decrypt_crafted_step saltpackName maj minor md eph ssb _
      (serParses_nilPairs boxes 0) r t]
    have hcf : checkFormatName (.str saltpackName) = .ok () := by
      simp [checkFormatName]
    have hcv : checkMajorVersion (.int maj) = .error .badVersion := by
      have hunf : checkMajorVersion (.int maj) =
          if maj = 1 ∨ maj = 2 then Except.ok maj
          else Except.error DecryptError.badVersion := rfl
      rw [hunf, if_neg (by tauto)]
    simp only [hcf, hcv]
  · intro maj minor md eph ssb boxes r t hmaj hmd
    rw [craftedInput, decrypt_crafted_step saltpackName maj minor md eph ssb _
      (serParses_nilPairs boxes 0) r t]
    have hcf : checkFormatName (.str saltpackName) = .ok () := by
      simp [checkFormatName]
    have hcv : checkMajorVersion (.int maj) = .ok maj := by
      have hunf : checkMajorVersion (.int maj) =
          if maj = 1 ∨ maj = 2 then Except.ok maj
          else Except.error DecryptError.badVersion := rfl
      rw [hunf, if_pos hmaj]
    obtain ⟨md', rfl⟩ : ∃ md', md = md' + 1 := ⟨md - 1, by omega⟩
    have hcm : checkMode (.int (md' + 1)) = .error .badMode := rfl
    simp only [hcf, hcv, hcm]
  · intro maj minor eph ssb boxes r t hmaj
    rw [craftedInput, decrypt_crafted_step saltpackName maj minor 0 eph ssb _
      (serParses_nilPairs boxes 0) r t]
    have hcf : checkFormatName (.str saltpackName) = .ok () := by
      simp [checkFormatName]
    have hcv : checkMajorVersion (.int maj) = .ok maj := by
      have hunf : checkMajorVersion (.int maj) =
          if maj = 1 ∨ maj = 2 then Except.ok maj
          else Except.error DecryptError.badVersion := rfl
      rw [hunf, if_pos hmaj]
    simp only [hcf, hcv, checkMode]
    exact decryptTail_not_header_error maj _ ssb eph r t _

theorem claimC8_witness :
    decrypt (craftedInput [120] 2 0 0 [1] [2] [] ++ []) [3] =
        .error .badFormat ∧
      decrypt (craftedInput saltpackName 3 0 0 [1] [2] [] ++ []) [3] =
        .error .badVersion ∧
      decrypt (craftedInput saltpackName 2 0 1 [1] [2] [] ++ []) [3] =
        .error .badMode ∧
      decrypt (craftedInput saltpackName 2 0 0 [1] [2] [] ++ []) [3] ≠
        .error .badFormat :=
  ⟨claimC8.1 [120] 2 0 0 [1] [2] [] [3] [] (by decide),
   claimC8.2.1 3 0 0 [1] [2] [] [3] [] (by decide) (by decide),
   claimC8.2.2.1 2 0 1 [1] [2] [] [3] [] (Or.inr rfl) (by decide),
   (claimC8.2.2.2 2 0 [1] [2] [] [3] [] (Or.inr rfl)).1⟩

/-- C1: round-trip. For any sender private key, any list of recipient public
keys, any message, any chunk_size > 0, any visible_recipients flag, and any
major_version in {1, 2}, decrypting the output of `encrypt` with any private
key r_priv whose base-point public key is among the recipients returns exactly
the original message (src/saltpack/encrypt.py lines 105-217 and 220-347). -/
theorem claimC1 (sender_private ephemeral_private payload_key r_priv message : Bytes)
    (recipients : List Bytes) (chunk_size : Nat) (visible_recipients : Bool)
    (major_version : Nat) (hS : 0 < chunk_size)
    (hmaj : major_version = 1 ∨ major_version = 2)
    (hr : crypto_scalarmult_base r_priv ∈ recipients) :
    decrypt (encrypt sender_private recipients message chunk_size
        visible_recipients major_version ephemeral_private payload_key) r_priv =
      .ok message :=
  decrypt_encrypt sender_private ephemeral_private payload_key r_priv message
    recipients chunk_size visible_recipients major_version hS hmaj hr

theorem claimC1_witness :
    (0 < 1 ∧ (2 = 1 ∨ 2 = 2) ∧
        crypto_scalarmult_base [3] ∈ [crypto_scalarmult_base [3]]) ∧
      decrypt (encrypt [0] [crypto_scalarmult_base [3]] [7, 8] 1 true 2 [1] [2])
          [3] = .ok [7, 8] :=
  ⟨⟨Nat.one_pos, Or.inr rfl, List.mem_singleton.mpr rfl⟩,
   claimC1 [0] [1] [2] [3] [7, 8] [crypto_scalarmult_base [3]] 1 true 2
     Nat.one_pos (Or.inr rfl) (List.mem_singleton.mpr rfl)⟩


/-- C6: wire format. The header is the six-element MessagePack array
[saltpack-name, [major, minor], 0, ephemeral_public, sender_secretbox,
recipient_pairs], and the byte stream returned by `encrypt` is exactly the
MessagePack bin object wrapping the packed header followed by the packed
payload packets concatenated in order, with no outer length prefix, magic or
trailer (src/saltpack/encrypt.py lines 137-151 and 204-217). -/
theorem claimC6 (sender_private payload_key ephemeral_private message : Bytes)
    (recipient_public_keys : List Bytes) (chunk_size : Nat)
    (visible_recipients : Bool) (major_version : Nat) :
    headerValue sender_private recipient_public_keys visible_recipients
        major_version ephemeral_private payload_key =
      .arr [.str saltpackName,
        .arr [.int major_version, .int (current_minor_version major_version)],
        .int 0,
        .bin (crypto_scalarmult_base ephemeral_private),
        .bin (crypto_secretbox (crypto_scalarmult_base sender_private)
          SENDER_KEY_SECRETBOX_NONCE payload_key),
        .arr (recipientPairs major_version visible_recipients
          recipient_public_keys ephemeral_private payload_key)] ∧
    encrypt sender_private recipient_public_keys message chunk_size
        visible_recipients major_version ephemeral_private payload_key =
      packb (.bin (packb (headerValue sender_private recipient_public_keys
          visible_recipients major_version ephemeral_private payload_key))) ++
        (chunks_loop message chunk_size major_version).flatMap (fun c =>
          packb (encryptPacket major_version
            (crypto_hash (packb (headerValue sender_private
              recipient_public_keys visible_recipients major_version
              ephemeral_private payload_key)))
            (recipient_public_keys.enum.map (fun p =>
              macKeyEncrypt major_version
                (crypto_hash (packb (headerValue sender_private
                  recipient_public_keys visible_recipients major_version
                  ephemeral_private payload_key)))
                p.1 p.2 sender_private ephemeral_private))
            payload_key c.1 c.2.1 c.2.2)) :=
  ⟨rfl, rfl⟩

/-- C7: MAC-key derivation. For recipient index i: in v1 the MAC key is bytes
16..48 of box(zero32, nonce = header_hash[0..24], pk = R, sk = sender_private);
in v2 it is the first 32 bytes of the hash of B1[-32..] concatenated with
B2[-32..], where B1 boxes zero32 under sender_private with nonce
header_hash[0..16] (bit 0 of byte 15 cleared) followed by the big-endian index,
and B2 boxes under ephemeral_private with that bit set; and for every major
version `decrypt`'s derivation from the recipient's private key against
sender_public and ephemeral_public yields the identical key
(src/saltpack/encrypt.py lines 153-183 and 270-296). -/
theorem claimC7 (hh hb : Bytes) (i : Nat) (R s e r : Bytes) (major : Nat) :
    macKeyEncrypt 1 hh i R s e =
        ((crypto_box zero32 (hh.take 24) R s).drop 16).take 32 ∧
    (let base1 := (hh.take 16).set 15 ((hh.take 16).getD 15 0 &&& 254)
     let base2 := (hh.take 16).set 15 ((hh.take 16).getD 15 0 ||| 1)
     let B1 := crypto_box zero32 (base1 ++ u64be i) R s
     let B2 := crypto_box zero32 (base2 ++ u64be i) R e
     macKeyEncrypt 2 hh i R s e =
       (crypto_hash (B1.drop (B1.length - 32) ++
         B2.drop (B2.length - 32))).take 32) ∧
    macKeyDecrypt major (crypto_hash hb) i (crypto_scalarmult_base s)
        (crypto_scalarmult_base e) r =
      macKeyEncrypt major (crypto_hash hb) i (crypto_scalarmult_base r) s e :=
  ⟨rfl, rfl, macKeyDecrypt_eq_macKeyEncrypt major hb i (tripleOf_base r) s e⟩


/-- `chunks_with_empty` produces exactly the chunk components of the v1
`chunks_loop` body, index by index. -/
theorem chunksWithEmptyGo_eq (S : Nat) :
    ∀ (fuel : Nat) (rest : Bytes) (c0 : Nat),
      chunksWithEmptyGo S fuel rest =
        (chunksLoopGo S 1 fuel rest c0).map (fun c => c.2.1)
  | 0, _, _ => rfl
  | fuel + 1, rest, c0 => by
    rw [chunksWithEmptyGo, chunksLoopGo]
    by_cases h : rest.isEmpty
    · rw [if_pos h, if_pos h]
      rfl
    · rw [if_neg h, if_neg h, List.map_cons]
      exact congrArg _ (chunksWithEmptyGo_eq S fuel _ _)

/-- C10: the two chunkers agree for v1. For every message and chunk_size > 0,
the chunk byte strings of `chunks_with_empty` equal, in order, the chunk
components of the triples yielded by `chunks_loop` under major version 1,
including the single empty chunk when the message is empty
(src/saltpack/encrypt.py lines 23-32 and 35-53). -/
theorem claimC10 (m : Bytes) (S : Nat) (hS : 0 < S) :
    chunks_with_empty m S = (chunks_loop m S 1).map (fun c => c.2.1) := by
  unfold chunks_with_empty chunks_loop
  by_cases h : m.isEmpty
  · have hm : m = [] := by simpa [List.isEmpty_iff] using h
    subst hm
    rw [if_pos rfl]
    rfl
  · rw [if_neg h, if_pos rfl, List.map_append,
      ← chunksWithEmptyGo_eq S m.length m 0]
    rfl

theorem claimC10_witness :
    0 < 2 ∧
      chunks_with_empty [7, 8, 9] 2 =
        (chunks_loop [7, 8, 9] 2 1).map (fun c => c.2.1) ∧
      chunks_with_empty [7, 8, 9] 2 = [[7, 8], [9], []] :=
  ⟨by decide, claimC10 [7, 8, 9] 2 (by decide), by decide⟩


/-- Closed form of the loop at lines 46-50: starting from `rest` with counter
`c0`, it yields one triple per ceil-division chunk, with consecutive indices,
the successive take/drop slices, and the v2 final flag set exactly when the
slice reaches the end. -/
theorem chunksLoopGo_eq (S maj : Nat) (hS : 0 < S) (fuel : Nat) :
    ∀ (rest : Bytes) (c0 : Nat), rest.length ≤ fuel →
      chunksLoopGo S maj fuel rest c0 =
        (List.range ((rest.length + S - 1) / S)).map
          (fun i => (c0 + i, (rest.drop (i * S)).take S,
            maj != 1 && decide (rest.length ≤ (i + 1) * S))) := by
  induction fuel with
  | zero =>
    intro rest c0 h
    have hnil : rest = [] := List.eq_nil_of_length_eq_zero (Nat.le_zero.mp h)
    subst hnil
    rw [show (List.length ([] : Bytes) + S - 1) / S = 0 from by
      rw [List.length_nil]; exact Nat.div_eq_of_lt (by omega)]
    rfl
  | succ fuel ih =>
    intro rest c0 h
    by_cases hre : rest.isEmpty
    · have hnil : rest = [] := by simpa [List.isEmpty_iff] using hre
      subst hnil
      rw [show (List.length ([] : Bytes) + S - 1) / S = 0 from by
        rw [List.length_nil]; exact Nat.div_eq_of_lt (by omega)]
      simp [chunksLoopGo]
    · have hL1 : 1 ≤ rest.length := by
        rcases rest with _ | ⟨a, t⟩
        · simp at hre
        · simp
      rw [chunksLoopGo, if_neg hre,
        ih (rest.drop S) (c0 + 1) (by rw [List.length_drop]; omega)]
      have hN : (rest.length + S - 1) / S =
          ((rest.drop S).length + S - 1) / S + 1 := by
        rw [List.length_drop]
        rcases Nat.lt_or_ge rest.length S with hlt | hge
        · rw [show rest.length - S = 0 from by omega]
          rw [show (0 + S - 1) / S = 0 from Nat.div_eq_of_lt (by omega)]
          simp only [Nat.zero_add]
          exact Nat.div_eq_of_lt_le (by omega) (by omega)
        · rw [show rest.length - S + S - 1 = rest.length - 1 from by omega,
            show rest.length + S - 1 = (rest.length - 1) + S from by omega,
            Nat.add_div_right _ hS]
      rw [hN, List.range_succ_eq_map, List.map_cons, List.map_map]
      congr 1
      · simp
      · apply List.map_congr_left
        intro i _
        have e1 : c0 + 1 + i = c0 + (i + 1) := by omega
        have e2 : (rest.drop S).drop (i * S) = rest.drop ((i + 1) * S) := by
          rw [List.drop_drop]
          congr 1
          ring
        have e3 : decide ((rest.drop S).length ≤ (i + 1) * S) =
            decide (rest.length ≤ (i + 1 + 1) * S) := by
          rw [List.length_drop]
          apply decide_eq_decide.mpr
          rw [show (i + 1 + 1) * S = (i + 1) * S + S from by ring]
          generalize (i + 1) * S = A
          omega
        simp only [Function.comp_apply, Nat.succ_eq_add_one]
        rw [e1, e2, e3]


theorem ceil_mul_ge (L S : Nat) (hS : 0 < S) : L ≤ ((L + S - 1) / S) * S := by
  have hdm := Nat.div_add_mod (L + S - 1) S
  have hlt := Nat.mod_lt (L + S - 1) hS
  rw [mul_comm]
  set P := S * ((L + S - 1) / S) with hP
  set r := (L + S - 1) % S with hr
  omega

theorem ceil_pred_mul_lt (L S : Nat) (hS : 0 < S) (hL : 0 < L) :
    ((L + S - 1) / S - 1) * S < L := by
  have hN : (L + S - 1) / S = (L - 1) / S + 1 := by
    rw [show L + S - 1 = (L - 1) + S from by omega, Nat.add_div_right _ hS]
  rw [hN]
  simp only [Nat.add_sub_cancel]
  have hle := Nat.div_mul_le_self (L - 1) S
  set Q := (L - 1) / S * S with hQ
  omega

/-- For a nonempty message, the v2 final-flag condition at the i-th chunk
holds exactly at the last chunk index. -/
theorem v2_flag_iff (L S : Nat) (hS : 0 < S) (hL : 0 < L) (i : Nat)
    (hi : i < (L + S - 1) / S) :
    (L ≤ (i + 1) * S ↔ i = (L + S - 1) / S - 1) := by
  constructor
  · intro hle
    by_contra hne
    have hii : i + 1 ≤ (L + S - 1) / S - 1 := by omega
    have hmul : (i + 1) * S ≤ ((L + S - 1) / S - 1) * S :=
      Nat.mul_le_mul_right S hii
    have hblt := ceil_pred_mul_lt L S hS hL
    set A := (i + 1) * S with hA
    set B := ((L + S - 1) / S - 1) * S with hB
    omega
  · intro hEq
    have hge := ceil_mul_ge L S hS
    rw [show i + 1 = (L + S - 1) / S from by omega]
    exact hge

/-- C5: chunker contract of `chunks_loop` (src/saltpack/encrypt.py lines
35-53). For every message and chunk_size S > 0: an empty message yields
exactly one triple (0, empty, true) in either version; a nonempty message
yields under v1 the ceil(len/S) successive slices in order with consecutive
indices from 0 followed by one extra empty terminator chunk, and under v2 the
ceil(len/S) successive slices with consecutive indices from 0, where the
final flag of the i-th packet holds exactly on the last chunk. -/
theorem claimC5 (m : Bytes) (S : Nat) (hS : 0 < S) :
    (∀ major, m = [] → chunks_loop m S major = [(0, [], true)]) ∧
    (m ≠ [] → chunks_loop m S 1 =
      (List.range ((m.length + S - 1) / S)).map
        (fun i => (i, (m.drop (i * S)).take S, false)) ++
        [((m.length + S - 1) / S, [], true)]) ∧
    (m ≠ [] → chunks_loop m S 2 =
      (List.range ((m.length + S - 1) / S)).map
        (fun i => (i, (m.drop (i * S)).take S,
          decide (m.length ≤ (i + 1) * S)))) ∧
    (∀ i, i < (chunks_loop m S 2).length →
      ((((chunks_loop m S 2).getD i (0, [], false)).2.2 = true) ↔
        i = (chunks_loop m S 2).length - 1)) := by
  have hv2 : m ≠ [] → chunks_loop m S 2 =
      (List.range ((m.length + S - 1) / S)).map
        (fun i => (i, (m.drop (i * S)).take S,
          decide (m.length ≤ (i + 1) * S))) := by
    intro hm
    unfold chunks_loop
    rw [if_neg (by simp [List.isEmpty_iff, hm]), if_neg (by omega),
      chunksLoopGo_eq S 2 hS m.length m 0 le_rfl]
    simp
  refine ⟨?_, ?_, hv2, ?_⟩
  · intro major hm
    subst hm
    simp [chunks_loop]
  · intro hm
    unfold chunks_loop
    rw [if_neg (by simp [List.isEmpty_iff, hm]), if_pos rfl,
      chunksLoopGo_eq S 1 hS m.length m 0 le_rfl]
    simp
  · intro i hi
    by_cases hm : m = []
    · subst hm
      have hi0 : i = 0 := by
        simp [chunks_loop] at hi
        omega
      subst hi0
      simp [chunks_loop]
    · rw [hv2 hm] at hi ⊢
      simp only [List.length_map, List.length_range] at hi ⊢
      have hget : ((List.range ((m.length + S - 1) / S)).map
          (fun i => ((i, (m.drop (i * S)).take S,
            decide (m.length ≤ (i + 1) * S)) : Nat × Bytes × Bool))).getD i
            (0, [], false) =
          (i, (m.drop (i * S)).take S, decide (m.length ≤ (i + 1) * S)) := by
        rw [List.getD_eq_getElem?_getD, List.getElem?_map,
          List.getElem?_range hi]
        rfl
      rw [hget]
      simp only [decide_eq_true_eq]
      exact v2_flag_iff m.length S hS (List.length_pos.mpr hm) i hi

theorem claimC5_witness :
    0 < 2 ∧ ([7, 8, 9] : Bytes) ≠ [] ∧
      chunks_loop [7, 8, 9] 2 1 =
        [(0, [7, 8], false), (1, [9], false), (2, [], true)] ∧
      chunks_loop [7, 8, 9] 2 2 = [(0, [7, 8], false), (1, [9], true)] :=
  ⟨by decide, by decide,
   ((claimC5 [7, 8, 9] 2 (by decide)).2.1 (by decide)).trans (by decide),
   ((claimC5 [7, 8, 9] 2 (by decide)).2.2.1 (by decide)).trans (by decide)⟩


/-- C3 (amended): in v2 decryption the packet loop stops after a packet whose
final flag is true OR whose decrypted chunk is empty — `if chunk == b'' or
final_flag: break` at line 336 of src/saltpack/encrypt.py.  In particular an
empty chunk with flag false in the middle of a v2 stream terminates
decryption by itself, returning the chunks accumulated so far. -/
theorem claimC3 (hh pk mk : Bytes) (mac_keys : List Bytes) (j : Nat)
    (hmk : mac_keys[j]? = some mk) (n : Nat) (ch : Bytes) (ff : Bool)
    (rest : Bytes) (f : Nat) :
    packetLoop 2 j hh mk pk (f + 1)
        (packb (encryptPacket 2 hh mac_keys pk n ch ff) ++ rest) n =
      (if ch.isEmpty || ff then .ok ch
       else (packetLoop 2 j hh mk pk f rest (n + 1)).map (ch ++ ·)) ∧
    packetLoop 2 j hh mk pk (f + 1)
        (packb (encryptPacket 2 hh mac_keys pk n [] false) ++ rest) n =
      .ok [] := by
  have h1 := packetLoop_step 2 j hh pk mk mac_keys hmk n ch ff rest f
  have h2 := packetLoop_step 2 j hh pk mk mac_keys hmk n [] false rest f
  constructor
  · simpa using h1
  · simpa using h2

theorem claimC3_witness :
    ([[5]] : List Bytes)[0]? = some [5] ∧
      packetLoop 2 0 [7] [5] [9] 1
        (packb (encryptPacket 2 [7] [[5]] [9] 0 [] false) ++ [3]) 0 =
        .ok [] :=
  ⟨rfl, (claimC3 [7] [9] [5] [[5]] 0 rfl 0 [6] true [3] 0).2⟩

set_option maxRecDepth 10000 in
/-- A full v2 stream whose first packet carries an empty chunk with final
flag false, followed by a second well-formed packet carrying [5] with flag
true.  `decrypt` returns ok [] — the empty chunk alone stopped the loop —
refuting the reading that only the final flag controls termination. -/
theorem claimC3_counterexample :
    decrypt
        (packb (.bin (packb
            (headerValue [0] [crypto_scalarmult_base [3]] true 2 [1] [2]))) ++
          packb (encryptPacket 2
            (crypto_hash (packb
              (headerValue [0] [crypto_scalarmult_base [3]] true 2 [1] [2])))
            [macKeyEncrypt 2
              (crypto_hash (packb
                (headerValue [0] [crypto_scalarmult_base [3]] true 2 [1] [2])))
              0 (crypto_scalarmult_base [3]) [0] [1]]
            [2] 0 [] false) ++
          packb (encryptPacket 2
            (crypto_hash (packb
              (headerValue [0] [crypto_scalarmult_base [3]] true 2 [1] [2])))
            [macKeyEncrypt 2
              (crypto_hash (packb
                (headerValue [0] [crypto_scalarmult_base [3]] true 2 [1] [2])))
              0 (crypto_scalarmult_base [3]) [0] [1]]
            [2] 1 [5] true))
        [3] = .ok [] := by
  rfl


set_option maxRecDepth 10000 in
/-- C4 (amended): for the empty message with sender [0], recipient pub(1) and
chunk_size 1000000, both the v2 and the v1 ciphertexts round-trip to the
empty message, the v2 ciphertext is nonempty, and the v1 ciphertext is
strictly SHORTER than the v2 one: the empty message yields the single chunk
(0, empty, true) in both versions (lines 39-41 of src/saltpack/encrypt.py),
so there is no trailing empty-chunk packet in v1, while the v2 packet
additionally carries the final-flag element. -/
theorem claimC4 :
    decrypt (encrypt [0] [crypto_scalarmult_base [1]] [] 1000000 true 2
        [4] [2]) [1] = .ok [] ∧
    decrypt (encrypt [0] [crypto_scalarmult_base [1]] [] 1000000 true 1
        [4] [2]) [1] = .ok [] ∧
    0 < (encrypt [0] [crypto_scalarmult_base [1]] [] 1000000 true 2
        [4] [2]).length ∧
    (encrypt [0] [crypto_scalarmult_base [1]] [] 1000000 true 1
        [4] [2]).length <
      (encrypt [0] [crypto_scalarmult_base [1]] [] 1000000 true 2
        [4] [2]).length ∧
    chunks_loop [] 1000000 1 = [(0, [], true)] := by
  refine ⟨?_, ?_, by decide, by decide, rfl⟩
  · exact decrypt_encrypt [0] [4] [2] [1] [] [crypto_scalarmult_base [1]]
      1000000 true 2 (by decide) (Or.inr rfl) (List.mem_singleton.mpr rfl)
  · exact decrypt_encrypt [0] [4] [2] [1] [] [crypto_scalarmult_base [1]]
      1000000 true 1 (by decide) (Or.inl rfl) (List.mem_singleton.mpr rfl)

set_option maxRecDepth 10000 in
/-- The claimed inequality direction is refuted: at the original claim's
inputs the v1 ciphertext is strictly SHORTER than the v2 one, not longer,
because the empty message produces no trailing empty-chunk packet in v1
(lines 39-41 of src/saltpack/encrypt.py return after the single chunk). -/
theorem claimC4_counterexample :
    (encrypt [0] [crypto_scalarmult_base [1]] [] 1000000 true 1
        [4] [2]).length <
      (encrypt [0] [crypto_scalarmult_base [1]] [] 1000000 true 2
        [4] [2]).length := by
  decide


/-- Parsing is stable under extending the stream: whatever bytes follow a
successfully parsed value are returned untouched, so appended trailing bytes
reappear after the remainder. -/
theorem parse_extend (t : Bytes) : ∀ fuel : Nat,
    (∀ s v r, parseV fuel s = some (v, r) →
      parseV fuel (s ++ t) = some (v, r ++ t)) ∧
    (∀ n s vs r, parseVList fuel n s = some (vs, r) →
      parseVList fuel n (s ++ t) = some (vs, r ++ t)) := by
  intro fuel
  induction fuel with
  | zero =>
    exact ⟨fun s v r h => by simp [parseV] at h,
           fun n s vs r h => by simp [parseVList] at h⟩
  | succ fuel ih =>
    constructor
    · intro s v r h
      rcases s with _ | ⟨b0, s1⟩
      · simp [parseV] at h
      rcases b0 with _ | _ | _ | _ | _ | _ | k
      · -- nil
        simp [parseV] at h ⊢
        exact ⟨h.1, by rw [h.2]⟩
      · -- bool
        rcases s1 with _ | ⟨b, s2⟩
        · simp [parseV] at h
        · simp [parseV] at h ⊢
          exact ⟨h.1, by rw [h.2]⟩
      · -- int
        rcases s1 with _ | ⟨n, s2⟩
        · simp [parseV] at h
        · simp [parseV] at h ⊢
          exact ⟨h.1, by rw [h.2]⟩
      · -- str
        rcases s1 with _ | ⟨len, s2⟩
        · simp [parseV] at h
        · by_cases hlen : len ≤ s2.length
          · simp [parseV, hlen] at h
            have hlen2 : len ≤ s2.length + t.length := by omega
            simp [parseV, hlen2]
            rw [List.take_append_of_le_length hlen,
              List.drop_append_of_le_length hlen]
            exact ⟨h.1, by rw [h.2]⟩
          · simp [parseV, hlen] at h
      · -- bin
        rcases s1 with _ | ⟨len, s2⟩
        · simp [parseV] at h
        · by_cases hlen : len ≤ s2.length
          · simp [parseV, hlen] at h
            have hlen2 : len ≤ s2.length + t.length := by omega
            simp [parseV, hlen2]
            rw [List.take_append_of_le_length hlen,
              List.drop_append_of_le_length hlen]
            exact ⟨h.1, by rw [h.2]⟩
          · simp [parseV, hlen] at h
      · -- arr
        rcases s1 with _ | ⟨len, s2⟩
        · simp [parseV] at h
        · have h' : (parseVList fuel len s2).map
              (fun p => (MPValue.arr p.1, p.2)) = some (v, r) := h
          rcases hpl : parseVList fuel len s2 with - | ⟨vs, r2⟩
          · rw [hpl] at h'
            cases h'
          · rw [hpl] at h'
            simp at h'
            show (parseVList fuel len (s2 ++ t)).map
              (fun p => (MPValue.arr p.1, p.2)) = some (v, r ++ t)
            rw [ih.2 len s2 vs r2 hpl, ← h'.1, ← h'.2]
            rfl
      · -- default
        have hnone : parseV (fuel + 1) ((k + 6) :: s1) = none := rfl
        rw [hnone] at h
        cases h
    · intro n s vs r h
      rcases n with _ | n
      · simp [parseVList] at h ⊢
        exact ⟨h.1, by rw [h.2]⟩
      · have h' : (parseV fuel s).bind (fun p =>
            (parseVList fuel n p.2).map (fun q => (p.1 :: q.1, q.2))) =
            some (vs, r) := h
        rcases hp : parseV fuel s with - | ⟨v1, r1⟩
        · rw [hp] at h'
          cases h'
        · rw [hp] at h'
          have h2 : (parseVList fuel n r1).map
              (fun q => (v1 :: q.1, q.2)) = some (vs, r) := h'
          rcases hq : parseVList fuel n r1 with - | ⟨vs2, r2⟩
          · rw [hq] at h2
            cases h2
          · rw [hq] at h2
            simp at h2
            show (parseV fuel (s ++ t)).bind (fun p =>
              (parseVList fuel n p.2).map (fun q => (p.1 :: q.1, q.2))) =
              some (vs, r ++ t)
            rw [ih.1 s v1 r1 hp]
            show (parseVList fuel n (r1 ++ t)).map
              (fun q => (v1 :: q.1, q.2)) = some (vs, r ++ t)
            rw [ih.2 n r1 vs2 r2 hq, ← h2.1, ← h2.2]
            rfl

theorem parse_mono : ∀ fuel : Nat, ∀ fuel' : Nat, fuel ≤ fuel' →
    (∀ s v r, parseV fuel s = some (v, r) → parseV fuel' s = some (v, r)) ∧
    (∀ n s vs r, parseVList fuel n s = some (vs, r) →
      parseVList fuel' n s = some (vs, r)) := by
  intro fuel
  induction fuel with
  | zero =>
    intro fuel' hle
    exact ⟨fun s v r h => by simp [parseV] at h,
           fun n s vs r h => by simp [parseVList] at h⟩
  | succ fuel ih =>
    intro fuel' hle
    obtain ⟨f2, rfl⟩ : ∃ f2, fuel' = f2 + 1 := ⟨fuel' - 1, by omega⟩
    have hf : fuel ≤ f2 := by omega
    constructor
    · intro s v r h
      rcases s with _ | ⟨b0, s1⟩
      · simp [parseV] at h
      rcases b0 with _ | _ | _ | _ | _ | _ | k
      · exact h
      · rcases s1 with _ | ⟨b, s2⟩
        · simp [parseV] at h
        · exact h
      · rcases s1 with _ | ⟨m, s2⟩
        · simp [parseV] at h
        · exact h
      · rcases s1 with _ | ⟨len, s2⟩
        · simp [parseV] at h
        · exact h
      · rcases s1 with _ | ⟨len, s2⟩
        · simp [parseV] at h
        · exact h
      · rcases s1 with _ | ⟨len, s2⟩
        · simp [parseV] at h
        · have h' : (parseVList fuel len s2).map
              (fun p => (MPValue.arr p.1, p.2)) = some (v, r) := h
          rcases hpl : parseVList fuel len s2 with - | ⟨vs, r2⟩
          · rw [hpl] at h'
            cases h'
          · rw [hpl] at h'
            show (parseVList f2 len s2).map
              (fun p => (MPValue.arr p.1, p.2)) = some (v, r)
            rw [(ih f2 hf).2 len s2 vs r2 hpl]
            exact h'
      · have hnone : parseV (fuel + 1) ((k + 6) :: s1) = none := rfl
        rw [hnone] at h
        cases h
    · intro n s vs r h
      rcases n with _ | n
      · exact h
      · have h' : (parseV fuel s).bind (fun p =>
            (parseVList fuel n p.2).map (fun q => (p.1 :: q.1, q.2))) =
            some (vs, r) := h
        rcases hp : parseV fuel s with - | ⟨v1, r1⟩
        · rw [hp] at h'
          cases h'
        · rw [hp] at h'
          have h2 : (parseVList fuel n r1).map
              (fun q => (v1 :: q.1, q.2)) = some (vs, r) := h'
          show (parseV f2 s).bind (fun p =>
            (parseVList f2 n p.2).map (fun q => (p.1 :: q.1, q.2))) =
            some (vs, r)
          rw [(ih f2 hf).1 s v1 r1 hp]
          show (parseVList f2 n r1).map
            (fun q => (v1 :: q.1, q.2)) = some (vs, r)
          rcases hq : parseVList fuel n r1 with - | ⟨vs2, r2⟩
          · rw [hq] at h2
            cases h2
          · rw [(ih f2 hf).2 n r1 vs2 r2 hq]
            rw [hq] at h2
            exact h2

/-- Fuel monotonicity wrapper at the fuel used by `decrypt`. -/
theorem parseV_extend_len (s t : Bytes) (v : MPValue) (r : Bytes)
    (h : parseV s.length s = some (v, r)) :
    parseV (s ++ t).length (s ++ t) = some (v, r ++ t) := by
  have h1 := (parse_extend t s.length).1 s v r h
  exact (parse_mono s.length (s ++ t).length (by simp)).1 _ _ _ h1


/-- A successful packet-loop run never reads past the terminator packet:
appending trailing bytes to the stream (and granting at least as much fuel)
returns the same plaintext. -/
theorem except_map_ok_elim {E A B : Type} (g : A → B) (x : Except E A) (b : B)
    (h : x.map g = .ok b) : ∃ a, x = .ok a ∧ g a = b := by
  rcases x with e | a
  · simp [Except.map] at h
  · refine ⟨a, rfl, ?_⟩
    simpa [Except.map] using h

theorem packetLoop_extend (maj j : Nat) (hh mk pk : Bytes) :
    ∀ (f : Nat) (s : Bytes) (c : Nat) (res t : Bytes) (f' : Nat),
      f ≤ f' → packetLoop maj j hh mk pk f s c = .ok res →
      packetLoop maj j hh mk pk f' (s ++ t) c = .ok res := by
  intro f
  induction f with
  | zero =>
    intro s c res t f' hle h
    simp [packetLoop] at h
  | succ f ih =>
    intro s c res t f' hle h
    obtain ⟨f2, rfl⟩ : ∃ f2, f' = f2 + 1 := ⟨f' - 1, by omega⟩
    have hf : f ≤ f2 := by omega
    simp only [packetLoop] at h
    rcases hp : parseV s.length s with - | ⟨packet, rest⟩
    · simp [hp] at h
    simp only [hp] at h
    have hplen := parseV_extend_len s t packet rest hp
    simp only [packetLoop, hplen]
    repeat' split at h
    all_goals try cases h
    all_goals simp_all
    all_goals obtain ⟨res2, hrec, hres⟩ := except_map_ok_elim _ _ _ h
    all_goals rw [ih rest (c + 1) res2 t f2 hf hrec, ← hres]
    all_goals rfl


/-- C9: trailing bytes are ignored. If `decrypt` succeeds on a ciphertext,
appending any byte string after it leaves the result unchanged: bytes after
the terminator packet are never read or validated
(src/saltpack/encrypt.py lines 303-347). -/
theorem claimC9 (c t r m : Bytes) (h : decrypt c r = .ok m) :
    decrypt (c ++ t) r = .ok m := by
  simp only [decrypt] at h
  rcases hp1 : parseV c.length c with - | ⟨first, stream⟩
  · simp [hp1] at h
  simp only [hp1] at h
  rcases hq1 : requireBin first with e | hb
  · simp [hq1] at h
  simp only [hq1] at h
  rcases hp2 : parseV hb.length hb with - | ⟨header, rest2⟩
  · simp [hp2] at h
  simp only [hp2] at h
  rcases hdh : destructureHeader header with - | hp4
  · simp [hdh] at h
  simp only [hdh] at h
  rcases hq2 : requireBin hp4.ephemeral_public with e | eph
  · simp [hq2] at h
  simp only [hq2] at h
  rcases hcf : checkFormatName hp4.format_name with e | u
  · simp [hcf] at h
  simp only [hcf] at h
  rcases hcv : checkMajorVersion hp4.major_version with e | major
  · simp [hcv] at h
  simp only [hcv] at h
  rcases hcm : checkMode hp4.mode with e | u2
  · simp [hcm] at h
  simp only [hcm] at h
  rcases hrp : hp4.recipient_pairs with _ | b | n | st | bs | pairs <;>
    simp only [hrp] at h <;> try cases h
  rcases hfr : findRecipient major (crypto_box_beforenm eph r) pairs 0
    with e | found
  · simp [hfr] at h
  simp only [hfr] at h
  rcases hq3 : requireBin hp4.sender_secretbox with e | ssb
  · simp [hq3] at h
  simp only [hq3] at h
  rcases hso : crypto_secretbox_open ssb SENDER_KEY_SECRETBOX_NONCE found.2
    with - | spub
  · simp [hso] at h
  simp only [hso] at h
  have hp1x := parseV_extend_len c t first stream hp1
  simp only [decrypt, hp1x, hq1, hp2, hdh, hq2, hcf, hcv, hcm, hrp, hfr,
    hq3, hso]
  exact packetLoop_extend major found.1 (crypto_hash hb)
    (macKeyDecrypt major (crypto_hash hb) found.1 spub eph r) found.2
    stream.length stream 0 m t (stream ++ t).length (by simp) h

set_option maxRecDepth 10000 in
theorem claimC9_witness :
    decrypt (encrypt [0] [crypto_scalarmult_base [3]] [7] 1 true 2 [1] [2])
        [3] = .ok [7] ∧
      decrypt (encrypt [0] [crypto_scalarmult_base [3]] [7] 1 true 2 [1] [2]
          ++ [9, 9]) [3] = .ok [7] := by
  have h : decrypt
      (encrypt [0] [crypto_scalarmult_base [3]] [7] 1 true 2 [1] [2]) [3] =
      .ok [7] := by rfl
  exact ⟨h, claimC9 _ [9, 9] [3] [7] h⟩

end Saltpack